import Mathlib

/-!
Verification of `mainOptimized.cpp`.

A shallow embedding of the single-producer/single-consumer `ring_buffer<T>`
of `src/mainOptimized.cpp`, of the `hash_calculator` and of the `test()`
harness, followed by theorems about them.

Conventions of the embedding.

* `size_t` is a 64-bit unsigned word: a value is a `Nat`, and every operation
  of the source that can leave the range (`<<`, `+ 1`, `- 1`) is reduced
  modulo `2 ^ 64`.
* A `while` loop is a function with a fuel argument; `none` means that the
  loop was still running when the fuel ran out.
* Creating the storage vector can throw; how many elements the environment
  can allocate is the parameter `max_slots` of the constructor.
* The two atomics `head_` and `tail_` are plain fields: one call of `push` or
  `pop` is one transition (the memory orderings are not modelled).
  `fine_state` splits each call into its accesses to shared memory and
  interleaves them, memory being sequentially consistent.
* `int` values of the harness are modelled by `Int`; this is exact as long as
  the loop counter stays below `2 ^ 31`, as it does for the `k_count` of the
  source.
-/

/-- Number of values of `size_t`: `2 ^ 64`. -/
def SIZE_MOD : Nat := 2 ^ 64

/-- State of a `ring_buffer<T>` object: the five data members, in declaration
order apart from the atomics being plain numbers. -/
structure ring_buffer (T : Type) where
  capacity_ : Nat
  mask_ : Nat
  storage_ : List T
  head_ : Nat
  tail_ : Nat
deriving DecidableEq, Repr

/-- What an execution of the constructor `ring_buffer(size_t capacity)` ends in. -/
inductive Constructed (α : Type) where
  /-- The constructor returned; the object is `q`. -/
  | built (q : α) : Constructed α
  /-- The `assert(capacity > 0)` of the constructor body failed (the program aborts). -/
  | assert_failed : Constructed α
  /-- The loop of `next_power_of_two` was still running when the fuel ran out. -/
  | no_return : Constructed α
  /-- The member initialiser `storage_(capacity_)` threw (`std::length_error`
  or `std::bad_alloc`); the exception leaves the constructor. -/
  | threw : Constructed α
deriving DecidableEq, Repr

/-- The constant `PTRDIFF_MAX` of the 64-bit target: `2 ^ 63 - 1`. -/
def PTRDIFF_MAX : Nat := 2 ^ 63 - 1

/-- The constructor `std::vector<T>(n)` of the standard library: a vector of
`n` value-initialised elements, or `none` when it throws. It throws
`std::length_error` when `n` exceeds `max_size()`, which is at most
`PTRDIFF_MAX / sizeof(T)` and so at most `PTRDIFF_MAX`, and `std::bad_alloc`
when the memory cannot be obtained. What the environment provides is the
parameter `max_slots`: the largest number of elements of `T` a vector can be
created with. -/
def vector_of_size {T : Type} [Inhabited T] (max_slots n : Nat) : Option (List T) :=
  if n ≤ max_slots ∧ n ≤ PTRDIFF_MAX then some (List.replicate n default) else none

/-- The loop `while (power < n) { power <<= 1; }` of `next_power_of_two`,
followed by `return power;`. Each unit of fuel pays for one evaluation of the
loop condition. -/
def ring_buffer.next_power_of_two_loop : Nat → Nat → Nat → Option Nat
  | 0, _, _ => none
  | fuel + 1, power, n =>
    if power < n then
      ring_buffer.next_power_of_two_loop fuel ((power <<< 1) % SIZE_MOD) n
    else
      some power

/-- The static member `next_power_of_two(size_t n)`: `size_t power = 1;` and the loop. -/
def ring_buffer.next_power_of_two (fuel n : Nat) : Option Nat :=
  ring_buffer.next_power_of_two_loop fuel 1 n

/-- The constructor `ring_buffer(size_t capacity)`. The member initialisers run
first, in declaration order (`capacity_`, `mask_`, `storage_`, `head_`,
`tail_`), then the body, which is `assert(capacity > 0)`. `storage_(capacity_)`
is a vector of `capacity_` value-initialised elements; when creating it
throws, the constructor ends there, before the body. `max_slots` is the
parameter of `vector_of_size`. -/
def ring_buffer.construct {T : Type} [Inhabited T] (fuel max_slots capacity : Nat) :
    Constructed (ring_buffer T) :=
  match ring_buffer.next_power_of_two fuel capacity with
  | none => Constructed.no_return
  | some cap =>
    match (vector_of_size max_slots cap : Option (List T)) with
    | none => Constructed.threw
    | some storage =>
      if capacity > 0 then
        Constructed.built
          { capacity_ := cap
            mask_ := (cap + SIZE_MOD - 1) % SIZE_MOD
            storage_ := storage
            head_ := 0
            tail_ := 0 }
      else
        Constructed.assert_failed

/-- The member `bool push(T value)`: the returned flag and the object afterwards. -/
def ring_buffer.push {T : Type} (q : ring_buffer T) (value : T) : Bool × ring_buffer T :=
  let curr_tail := q.tail_
  let curr_head := q.head_
  if (((curr_tail + 1) % SIZE_MOD) &&& q.mask_) = curr_head then
    (false, q)
  else
    (true, { q with
      storage_ := q.storage_.set curr_tail value
      tail_ := ((curr_tail + 1) % SIZE_MOD) &&& q.mask_ })

/-- The member `bool pop(T& value)`: the returned flag, the caller's variable
afterwards and the object afterwards. `std::move` out of a slot leaves the
slot as it is (as for `int`, the element type the program uses). -/
def ring_buffer.pop {T : Type} [Inhabited T] (q : ring_buffer T) (value : T) :
    Bool × T × ring_buffer T :=
  let curr_head := q.head_
  let curr_tail := q.tail_
  if curr_head = curr_tail then
    (false, value, q)
  else
    (true, q.storage_.getD curr_head default,
      { q with head_ := ((curr_head + 1) % SIZE_MOD) &&& q.mask_ })

/-- One call made on a queue by its producer or its consumer. -/
inductive Call (T : Type) where
  | push (value : T) : Call T
  | pop : Call T
deriving DecidableEq, Repr

/-- A queue together with the history of the calls made on it: `pushed` lists
the arguments of the pushes that returned true, `popped` the values delivered
by the pops that returned true (both in call order), `value` is the
consumer's output variable. -/
structure Session (T : Type) where
  q : ring_buffer T
  value : T
  pushed : List T
  popped : List T
deriving DecidableEq, Repr

/-- Execute one call and record its outcome. -/
def Session.step {T : Type} [Inhabited T] (s : Session T) : Call T → Session T
  | Call.push v =>
    let r := s.q.push v
    { s with q := r.2, pushed := if r.1 then s.pushed ++ [v] else s.pushed }
  | Call.pop =>
    let r := s.q.pop s.value
    { s with q := r.2.2, value := r.2.1,
             popped := if r.1 then s.popped ++ [r.2.1] else s.popped }

/-- The session that starts on `q` with nothing pushed or popped yet. -/
def Session.start {T : Type} [Inhabited T] (q : ring_buffer T) : Session T :=
  { q := q, value := default, pushed := [], popped := [] }

/-- Execute a finite sequence of calls, one call at a time. -/
def Session.run {T : Type} [Inhabited T] (s : Session T) (calls : List (Call T)) : Session T :=
  calls.foldl Session.step s

/-- Push the values of `vs` one after the other (no retry); the object afterwards. -/
def ring_buffer.push_all {T : Type} (q : ring_buffer T) (vs : List T) : ring_buffer T :=
  vs.foldl (fun acc v => (acc.push v).2) q

/-- The flags returned by pushing the values of `vs` one after the other. -/
def ring_buffer.push_flags {T : Type} : ring_buffer T → List T → List Bool
  | _, [] => []
  | q, v :: vs => (q.push v).1 :: ring_buffer.push_flags (q.push v).2 vs

/-- Call `pop` `k` times in a row; the flags returned and the object afterwards. -/
def ring_buffer.pop_times {T : Type} [Inhabited T] :
    ring_buffer T → T → Nat → List Bool × ring_buffer T
  | q, _, 0 => ([], q)
  | q, value, k + 1 =>
    let r := q.pop value
    let rest := ring_buffer.pop_times r.2.2 r.2.1 k
    (r.1 :: rest.1, rest.2)

/-- The representation invariant of a queue: the capacity is a power of two
that fits the word with room for `+ 1`, the mask is the capacity minus one,
the storage has `capacity_` slots and both cursors index a slot. -/
structure ring_buffer.wf {T : Type} (q : ring_buffer T) : Prop where
  pow : ∃ k, k ≤ 63 ∧ q.capacity_ = 2 ^ k
  mask : q.mask_ = q.capacity_ - 1
  len : q.storage_.length = q.capacity_
  head : q.head_ < q.capacity_
  tail : q.tail_ < q.capacity_

/-- Number of slots between `head_` and `tail_`, going forward and wrapping
at `capacity_`. -/
def ring_buffer.count {T : Type} (q : ring_buffer T) : Nat :=
  (q.tail_ + q.capacity_ - q.head_) % q.capacity_

/-- The values held by the queue, oldest first: the slots from `head_` up to
but not including `tail_`, wrapping at `capacity_`. -/
def ring_buffer.contents {T : Type} [Inhabited T] (q : ring_buffer T) : List T :=
  (List.range q.count).map fun i => q.storage_.getD ((q.head_ + i) % q.capacity_) default

/-- State of a `hash_calculator`: its data member `digest_`. -/
structure hash_calculator where
  digest_ : Nat
deriving DecidableEq, Repr

/-- A fresh `hash_calculator`: the member initialiser `size_t digest_ = 0;`. -/
def hash_calculator.init : hash_calculator :=
  { digest_ := 0 }

/-- The member `set(const t_value& _value)`:
`digest_ = std::hash<t_value>()(_value) ^ (digest_ << 1);`.
`std::hash<t_value>` is implementation-defined, so it is the parameter
`std_hash`; its result is a `size_t`. -/
def hash_calculator.set {T : Type} (std_hash : T → Nat) (h : hash_calculator) (_value : T) :
    hash_calculator :=
  { digest_ := (std_hash _value % SIZE_MOD) ^^^ ((h.digest_ <<< 1) % SIZE_MOD) }

/-- The member `value()`. -/
def hash_calculator.value (h : hash_calculator) : Nat :=
  h.digest_

/-- The calculator obtained from a fresh one by `set` on the values of `vs`, in order. -/
def hash_calculator.of_values {T : Type} (std_hash : T → Nat) (vs : List T) : hash_calculator :=
  vs.foldl (hash_calculator.set std_hash) hash_calculator.init

/-- The two threads of `test()`. -/
inductive Thread where
  | producer : Thread
  | consumer : Thread
deriving DecidableEq, Repr

/-- State of one run of `test()` while its two threads execute: the shared
`buffer`, the locals of the producer lambda (`hash`, the loop variable `i`,
and whether it is inside `while (!buffer.push(i))`, that is, whether
`hash.set(i)` has already been executed for the current `i`), the locals of
the consumer lambda (`hash`, `i`, `value`), and the values the consumer
obtained so far, in order (a history variable, not in the source). -/
structure test_state where
  buffer : ring_buffer Int
  p_hash : hash_calculator
  p_i : Nat
  p_retry : Bool
  c_hash : hash_calculator
  c_i : Nat
  c_value : Int
  collected : List Int
deriving DecidableEq, Repr

/-- The start of `test()`: `ring_buffer<int> buffer(k_size);` and the two
threads at the start of their lambdas. -/
def test_init (fuel max_slots k_size : Nat) : Constructed test_state :=
  match (ring_buffer.construct fuel max_slots k_size : Constructed (ring_buffer Int)) with
  | Constructed.built q =>
    Constructed.built
      { buffer := q
        p_hash := hash_calculator.init
        p_i := 0
        p_retry := false
        c_hash := hash_calculator.init
        c_i := 0
        c_value := 0
        collected := [] }
  | Constructed.assert_failed => Constructed.assert_failed
  | Constructed.no_return => Constructed.no_return
  | Constructed.threw => Constructed.threw

/-- One step of the producer thread: one whole call `buffer.push(i)`,
preceded by `hash.set(i)` when it is the first attempt for this `i`, and
followed by `++i` when the call returned true. Nothing happens once the loop
`for (int i = 0; i < k_count; ++i)` has ended. -/
def producer_step (k_count : Nat) (std_hash : Int → Nat) (s : test_state) : test_state :=
  if s.p_i < k_count then
    let hash := if s.p_retry then s.p_hash else s.p_hash.set std_hash (s.p_i : Int)
    let r := s.buffer.push (s.p_i : Int)
    { s with
      buffer := r.2
      p_hash := hash
      p_i := if r.1 then s.p_i + 1 else s.p_i
      p_retry := !r.1 }
  else
    s

/-- One step of the consumer thread: one whole call `buffer.pop(value)`,
followed by `hash.set(value)` and `++i` when the call returned true. Nothing
happens once the loop has ended. -/
def consumer_step (k_count : Nat) (std_hash : Int → Nat) (s : test_state) : test_state :=
  if s.c_i < k_count then
    let r := s.buffer.pop s.c_value
    if r.1 then
      { s with
        buffer := r.2.2
        c_value := r.2.1
        c_hash := s.c_hash.set std_hash r.2.1
        c_i := s.c_i + 1
        collected := s.collected ++ [r.2.1] }
    else
      { s with buffer := r.2.2, c_value := r.2.1 }
  else
    s

/-- One step of the thread the scheduler picked. -/
def test_step (k_count : Nat) (std_hash : Int → Nat) (s : test_state) : Thread → test_state
  | Thread.producer => producer_step k_count std_hash s
  | Thread.consumer => consumer_step k_count std_hash s

/-- Run the two threads along a schedule, one whole call at a time. -/
def test_run (k_count : Nat) (std_hash : Int → Nat) (schedule : List Thread)
    (s : test_state) : test_state :=
  schedule.foldl (test_step k_count std_hash) s

/-- The check at the end of `test()`: true when `producer_hash != consumer_hash`
and the `std::runtime_error` is thrown. -/
def test_throws (s : test_state) : Bool :=
  s.p_hash.value != s.c_hash.value

/-- What holds of the harness between two calls: the queue is well formed,
the values pushed so far (`0 .. p_i - 1`) are the collected ones followed by
the ones still queued, each hash is the digest of the values fed to it, and
the counters agree with the histories. -/
structure test_inv (k_count : Nat) (std_hash : Int → Nat) (s : test_state) : Prop where
  wf : s.buffer.wf
  fifo : (List.range s.p_i).map Int.ofNat = s.collected ++ s.buffer.contents
  p_le : s.p_i ≤ k_count
  p_lt : s.p_retry = true → s.p_i < k_count
  p_digest : s.p_hash = hash_calculator.of_values std_hash
    ((List.range (if s.p_retry then s.p_i + 1 else s.p_i)).map Int.ofNat)
  c_len : s.collected.length = s.c_i
  c_digest : s.c_hash = hash_calculator.of_values std_hash s.collected

/-- The next action of a thread inside `push` or `pop`, the calls being
split into their accesses to shared memory: load the own cursor (the call
starts), load the peer's cursor (followed by the full or empty test), access
the slot, store the own cursor (the call returns true). -/
inductive Pc where
  | load_own : Pc
  | load_peer : Pc
  | access_slot : Pc
  | store_own : Pc
deriving DecidableEq, Repr

/-- The queue with its two threads somewhere inside their calls: the shared
object, and for each thread its next action and the locals of the call
(`value`, `curr_tail`, `curr_head`). -/
structure fine_state (T : Type) where
  q : ring_buffer T
  p_pc : Pc
  p_value : T
  p_curr_tail : Nat
  p_curr_head : Nat
  c_pc : Pc
  c_value : T
  c_curr_head : Nat
  c_curr_tail : Nat
deriving DecidableEq, Repr

/-- One move of the scheduler: the producer executes its next action (when it
starts a call, that call is `push(value)`), or the consumer executes its
next action. -/
inductive Move (T : Type) where
  | producer (value : T) : Move T
  | consumer : Move T
deriving DecidableEq, Repr

/-- The next action of the producer, line by line of `push`:
`curr_tail = tail_.load(relaxed)`; `curr_head = head_.load(acquire)` with the
test `((curr_tail + 1) & mask_) == curr_head` (return false when it holds);
`storage_[curr_tail] = std::move(value)`;
`tail_.store((curr_tail + 1) & mask_, release)` and return true. -/
def fine_state.producer_action {T : Type} (s : fine_state T) (value : T) : fine_state T :=
  match s.p_pc with
  | Pc.load_own =>
    { s with p_value := value, p_curr_tail := s.q.tail_, p_pc := Pc.load_peer }
  | Pc.load_peer =>
    if (((s.p_curr_tail + 1) % SIZE_MOD) &&& s.q.mask_) = s.q.head_ then
      { s with p_curr_head := s.q.head_, p_pc := Pc.load_own }
    else
      { s with p_curr_head := s.q.head_, p_pc := Pc.access_slot }
  | Pc.access_slot =>
    { s with q := { s.q with storage_ := s.q.storage_.set s.p_curr_tail s.p_value },
             p_pc := Pc.store_own }
  | Pc.store_own =>
    { s with q := { s.q with tail_ := ((s.p_curr_tail + 1) % SIZE_MOD) &&& s.q.mask_ },
             p_pc := Pc.load_own }

/-- The next action of the consumer, line by line of `pop`:
`curr_head = head_.load(relaxed)`; `curr_tail = tail_.load(acquire)` with the
test `curr_head == curr_tail` (return false when it holds);
`value = std::move(storage_[curr_head])`;
`head_.store((curr_head + 1) & mask_, release)` and return true. -/
def fine_state.consumer_action {T : Type} [Inhabited T] (s : fine_state T) : fine_state T :=
  match s.c_pc with
  | Pc.load_own =>
    { s with c_curr_head := s.q.head_, c_pc := Pc.load_peer }
  | Pc.load_peer =>
    if s.c_curr_head = s.q.tail_ then
      { s with c_curr_tail := s.q.tail_, c_pc := Pc.load_own }
    else
      { s with c_curr_tail := s.q.tail_, c_pc := Pc.access_slot }
  | Pc.access_slot =>
    { s with c_value := s.q.storage_.getD s.c_curr_head default, c_pc := Pc.store_own }
  | Pc.store_own =>
    { s with q := { s.q with head_ := ((s.c_curr_head + 1) % SIZE_MOD) &&& s.q.mask_ },
             c_pc := Pc.load_own }

/-- Execute one move. -/
def fine_state.step {T : Type} [Inhabited T] (s : fine_state T) : Move T → fine_state T
  | Move.producer value => s.producer_action value
  | Move.consumer => s.consumer_action

/-- Both threads outside any call, on the queue `q`. -/
def fine_state.start {T : Type} [Inhabited T] (q : ring_buffer T) : fine_state T :=
  { q := q
    p_pc := Pc.load_own
    p_value := default
    p_curr_tail := 0
    p_curr_head := 0
    c_pc := Pc.load_own
    c_value := default
    c_curr_head := 0
    c_curr_tail := 0 }

/-- Execute a finite sequence of moves: an arbitrary interleaving of the
actions of the two threads over sequentially consistent memory. -/
def fine_state.run {T : Type} [Inhabited T] (s : fine_state T) (moves : List (Move T)) :
    fine_state T :=
  moves.foldl fine_state.step s

/-- What holds between two actions of the fine-grained execution: the queue
is well formed; a producer inside `push` holds the current tail, and past
its test the queue is not full; a consumer inside `pop` holds the current
head, and past its test the queue is not empty. -/
structure fine_inv {T : Type} (s : fine_state T) : Prop where
  wf : s.q.wf
  p_tail : s.p_pc ≠ Pc.load_own → s.p_curr_tail = s.q.tail_
  p_room : s.p_pc = Pc.access_slot ∨ s.p_pc = Pc.store_own →
    (if s.q.tail_ + 1 < s.q.capacity_ then s.q.tail_ + 1 else 0) ≠ s.q.head_
  c_head : s.c_pc ≠ Pc.load_own → s.c_curr_head = s.q.head_
  c_some : s.c_pc = Pc.access_slot ∨ s.c_pc = Pc.store_own → s.q.head_ ≠ s.q.tail_

/-! ## Rounding the capacity -/

theorem shift_one_wrap (j : Nat) (hj : j < 63) : ((2 ^ j) <<< 1) % SIZE_MOD = 2 ^ (j + 1) := by
  have h : (2 : Nat) ^ (j + 1) < 2 ^ 64 := Nat.pow_lt_pow_right (by norm_num) (by omega)
  rw [Nat.shiftLeft_eq, pow_one, ← pow_succ]
  exact Nat.mod_eq_of_lt h

theorem shift_top_wrap : ((2 ^ 63) <<< 1) % SIZE_MOD = 0 := by
  decide

theorem loop_zero_power (n : Nat) (hn : 0 < n) (fuel : Nat) :
    ring_buffer.next_power_of_two_loop fuel 0 n = none := by
  induction fuel with
  | zero => rfl
  | succ f ih =>
    have h0 : ((0 : Nat) <<< 1) % SIZE_MOD = 0 := by decide
    rw [ring_buffer.next_power_of_two_loop, if_pos hn, h0]
    exact ih

theorem loop_large (n : Nat) (hn : 2 ^ 63 < n) (fuel : Nat) :
    ∀ j, j ≤ 63 → ring_buffer.next_power_of_two_loop fuel (2 ^ j) n = none := by
  induction fuel with
  | zero => intro j _; rfl
  | succ f ih =>
    intro j hj
    have hp : (2 : Nat) ^ j ≤ 2 ^ 63 := Nat.pow_le_pow_right (by norm_num) hj
    rw [ring_buffer.next_power_of_two_loop, if_pos (by omega)]
    rcases Nat.lt_or_ge j 63 with h | h
    · rw [shift_one_wrap j h]
      exact ih (j + 1) (by omega)
    · have hj63 : j = 63 := by omega
      subst hj63
      rw [shift_top_wrap]
      exact loop_zero_power n (by omega) f

theorem loop_small (n : Nat) (hn : n ≤ 2 ^ 63) (fuel : Nat) :
    ∀ j, j ≤ 63 → 64 ≤ fuel + j → (∀ i, i < j → 2 ^ i < n) →
      ∃ m, m ≤ 63 ∧ ring_buffer.next_power_of_two_loop fuel (2 ^ j) n = some (2 ^ m) ∧
        n ≤ 2 ^ m ∧ ∀ i, i < m → 2 ^ i < n := by
  induction fuel with
  | zero => intro j hj hf; omega
  | succ f ih =>
    intro j hj hf hlow
    rw [ring_buffer.next_power_of_two_loop]
    by_cases hlt : 2 ^ j < n
    · have hj63 : j < 63 := by
        by_contra hc
        have : j = 63 := by omega
        subst this
        omega
      rw [if_pos hlt, shift_one_wrap j hj63]
      refine ih (j + 1) (by omega) (by omega) ?_
      intro i hi
      rcases Nat.lt_or_ge i j with h | h
      · exact hlow i h
      · have : i = j := by omega
        subst this
        exact hlt
    · rw [if_neg hlt]
      exact ⟨j, hj, rfl, by omega, hlow⟩

theorem next_power_of_two_small (n fuel : Nat) (hn : n ≤ 2 ^ 63) (hf : 64 ≤ fuel) :
    ∃ m, m ≤ 63 ∧ ring_buffer.next_power_of_two fuel n = some (2 ^ m) ∧
      n ≤ 2 ^ m ∧ ∀ i, i < m → 2 ^ i < n := by
  have h := loop_small n hn fuel 0 (by omega) (by omega) (by intro i hi; omega)
  simpa [ring_buffer.next_power_of_two] using h

theorem next_power_of_two_large (n fuel : Nat) (hn : 2 ^ 63 < n) :
    ring_buffer.next_power_of_two fuel n = none := by
  have h := loop_large n hn fuel 0 (by omega)
  simpa [ring_buffer.next_power_of_two] using h

/-! ## Well-formed queues -/

theorem vector_of_size_some {T : Type} [Inhabited T] (max_slots n : Nat) (l : List T)
    (h : vector_of_size max_slots n = some l) :
    n ≤ max_slots ∧ n ≤ PTRDIFF_MAX ∧ l = List.replicate n default := by
  unfold vector_of_size at h
  by_cases hc : n ≤ max_slots ∧ n ≤ PTRDIFF_MAX
  · rw [if_pos hc] at h
    injection h with h
    exact ⟨hc.1, hc.2, h.symm⟩
  · rw [if_neg hc] at h
    exact absurd h (by simp)

theorem construct_built {T : Type} [Inhabited T] (fuel max_slots n : Nat) (q : ring_buffer T)
    (h : ring_buffer.construct fuel max_slots n = Constructed.built q) :
    1 ≤ n ∧ n ≤ 2 ^ 63 ∧ ring_buffer.next_power_of_two fuel n = some q.capacity_ ∧
      q = { capacity_ := q.capacity_
            mask_ := (q.capacity_ + SIZE_MOD - 1) % SIZE_MOD
            storage_ := List.replicate q.capacity_ default
            head_ := 0
            tail_ := 0 } ∧
      q.capacity_ ≤ max_slots ∧ q.capacity_ ≤ PTRDIFF_MAX := by
  unfold ring_buffer.construct at h
  rcases Nat.lt_or_ge (2 ^ 63) n with hbig | hsmall
  · rw [next_power_of_two_large n fuel hbig] at h
    simp at h
  · cases hnp : ring_buffer.next_power_of_two fuel n with
    | none => rw [hnp] at h; simp at h
    | some cap =>
      rw [hnp] at h
      cases hv : (vector_of_size max_slots cap : Option (List T)) with
      | none => simp [hv] at h
      | some l =>
        simp only [hv] at h
        obtain ⟨hm, hp, hl⟩ := vector_of_size_some max_slots cap l hv
        by_cases hpos : n > 0
        · simp only [hpos, if_true] at h
          injection h with h
          subst h
          subst hl
          exact ⟨hpos, hsmall, rfl, rfl, hm, hp⟩
        · simp only [hpos, if_false] at h
          exact absurd h (by simp)

theorem construct_of_rounded {T : Type} [Inhabited T] (fuel max_slots n cap : Nat)
    (hnp : ring_buffer.next_power_of_two fuel n = some cap) :
    (ring_buffer.construct fuel max_slots n : Constructed (ring_buffer T))
      = if cap ≤ max_slots ∧ cap ≤ PTRDIFF_MAX then
          (if n > 0 then
            Constructed.built
              { capacity_ := cap
                mask_ := (cap + SIZE_MOD - 1) % SIZE_MOD
                storage_ := List.replicate cap default
                head_ := 0
                tail_ := 0 }
          else Constructed.assert_failed)
        else Constructed.threw := by
  unfold ring_buffer.construct vector_of_size
  rw [hnp]
  by_cases hc : cap ≤ max_slots ∧ cap ≤ PTRDIFF_MAX
  · simp only [hc, and_self, if_true]
  · simp only [hc, if_false]

theorem construct_top {T : Type} [Inhabited T] (fuel max_slots : Nat) (hf : 64 ≤ fuel) :
    (ring_buffer.construct fuel max_slots (2 ^ 63) : Constructed (ring_buffer T))
      = Constructed.threw := by
  obtain ⟨m, _, hres, hge, _⟩ := next_power_of_two_small (2 ^ 63) fuel (le_refl _) hf
  have hp : PTRDIFF_MAX = 2 ^ 63 - 1 := rfl
  rw [construct_of_rounded fuel max_slots (2 ^ 63) (2 ^ m) hres, if_neg (by omega)]

theorem loop_mono (n fuel : Nat) :
    ∀ p r, ring_buffer.next_power_of_two_loop fuel p n = some r →
      ∀ extra, ring_buffer.next_power_of_two_loop (fuel + extra) p n = some r := by
  induction fuel with
  | zero => intro p r h; simp [ring_buffer.next_power_of_two_loop] at h
  | succ f ih =>
    intro p r h extra
    have e : f + 1 + extra = (f + extra) + 1 := by omega
    rw [e, ring_buffer.next_power_of_two_loop]
    rw [ring_buffer.next_power_of_two_loop] at h
    by_cases hlt : p < n
    · rw [if_pos hlt] at h ⊢
      exact ih _ _ h extra
    · rw [if_neg hlt] at h ⊢
      exact h

theorem next_power_of_two_spec (n fuel cap : Nat)
    (h : ring_buffer.next_power_of_two fuel n = some cap) :
    ∃ m, m ≤ 63 ∧ cap = 2 ^ m ∧ n ≤ 2 ^ m ∧ ∀ i, i < m → 2 ^ i < n := by
  rcases Nat.lt_or_ge (2 ^ 63) n with hbig | hsmall
  · rw [next_power_of_two_large n fuel hbig] at h
    simp at h
  · obtain ⟨m, hm, hres, hge, hmin⟩ := next_power_of_two_small n (fuel + 64) hsmall (by omega)
    have h2 := loop_mono n fuel 1 cap h 64
    unfold ring_buffer.next_power_of_two at hres
    rw [hres] at h2
    injection h2 with h2
    exact ⟨m, hm, h2.symm, hge, hmin⟩

theorem mod_two_periods (x c : Nat) (hx : x < 2 * c) :
    x % c = if x < c then x else x - c := by
  split
  · next h => exact Nat.mod_eq_of_lt h
  · next h =>
    have hc : c ≤ x := by omega
    rw [Nat.mod_eq_sub_mod hc]
    exact Nat.mod_eq_of_lt (by omega)

theorem wf_cap_pos {T : Type} {q : ring_buffer T} (h : q.wf) : 0 < q.capacity_ := by
  have := h.head
  omega

theorem wf_cap_le {T : Type} {q : ring_buffer T} (h : q.wf) : q.capacity_ ≤ 2 ^ 63 := by
  obtain ⟨k, hk, hc⟩ := h.pow
  rw [hc]
  exact Nat.pow_le_pow_right (by norm_num) hk

theorem wf_and_mask {T : Type} {q : ring_buffer T} (h : q.wf) (x : Nat) :
    x &&& q.mask_ = x % q.capacity_ := by
  obtain ⟨k, _, hc⟩ := h.pow
  rw [h.mask, hc]
  exact Nat.and_pow_two_sub_one_eq_mod x k

theorem wf_next {T : Type} {q : ring_buffer T} (h : q.wf) (i : Nat) (hi : i < q.capacity_) :
    ((i + 1) % SIZE_MOD) &&& q.mask_ = if i + 1 < q.capacity_ then i + 1 else 0 := by
  have hle := wf_cap_le h
  have hsm : (i + 1) % SIZE_MOD = i + 1 := by
    apply Nat.mod_eq_of_lt
    have : (2 : Nat) ^ 63 < SIZE_MOD := by decide
    omega
  rw [hsm, wf_and_mask h, mod_two_periods (i + 1) q.capacity_ (by omega)]
  split <;> omega

theorem wf_count {T : Type} {q : ring_buffer T} (h : q.wf) :
    q.count = if q.head_ ≤ q.tail_ then q.tail_ - q.head_
      else q.tail_ + q.capacity_ - q.head_ := by
  have hh := h.head
  have ht := h.tail
  unfold ring_buffer.count
  rw [mod_two_periods _ q.capacity_ (by omega)]
  split <;> split <;> omega

theorem wf_slot {T : Type} {q : ring_buffer T} (h : q.wf) (i : Nat) (hi : i < q.capacity_) :
    (q.head_ + i) % q.capacity_ = if q.head_ + i < q.capacity_ then q.head_ + i
      else q.head_ + i - q.capacity_ := by
  have hh := h.head
  exact mod_two_periods _ q.capacity_ (by omega)

theorem push_of_wf {T : Type} {q : ring_buffer T} (h : q.wf) (v : T) :
    q.push v = if (if q.tail_ + 1 < q.capacity_ then q.tail_ + 1 else 0) = q.head_ then (false, q)
      else (true, { q with storage_ := q.storage_.set q.tail_ v,
                           tail_ := if q.tail_ + 1 < q.capacity_ then q.tail_ + 1 else 0 }) := by
  unfold ring_buffer.push
  simp only [wf_next h q.tail_ h.tail]

theorem pop_of_wf {T : Type} [Inhabited T] {q : ring_buffer T} (h : q.wf) (x : T) :
    q.pop x = if q.head_ = q.tail_ then (false, x, q)
      else (true, q.storage_.getD q.head_ default,
        { q with head_ := if q.head_ + 1 < q.capacity_ then q.head_ + 1 else 0 }) := by
  unfold ring_buffer.pop
  simp only [wf_next h q.head_ h.head]

theorem push_wf {T : Type} {q : ring_buffer T} (h : q.wf) (v : T) : (q.push v).2.wf := by
  have hpos := wf_cap_pos h
  rw [push_of_wf h]
  by_cases hc : (if q.tail_ + 1 < q.capacity_ then q.tail_ + 1 else 0) = q.head_
  · rw [if_pos hc]
    exact h
  · rw [if_neg hc]
    refine ⟨h.pow, h.mask, ?_, h.head, ?_⟩
    · simpa using h.len
    · show (if q.tail_ + 1 < q.capacity_ then q.tail_ + 1 else 0) < q.capacity_
      split <;> omega

theorem pop_wf {T : Type} [Inhabited T] {q : ring_buffer T} (h : q.wf) (x : T) :
    (q.pop x).2.2.wf := by
  have hpos := wf_cap_pos h
  rw [pop_of_wf h]
  by_cases hc : q.head_ = q.tail_
  · rw [if_pos hc]
    exact h
  · rw [if_neg hc]
    refine ⟨h.pow, h.mask, h.len, ?_, h.tail⟩
    show (if q.head_ + 1 < q.capacity_ then q.head_ + 1 else 0) < q.capacity_
    split <;> omega

/-! ## The contents of a queue -/

theorem count_lt {T : Type} {q : ring_buffer T} (h : q.wf) : q.count < q.capacity_ :=
  Nat.mod_lt _ (wf_cap_pos h)

theorem count_push {T : Type} {q : ring_buffer T} (h : q.wf) (v : T)
    (hnf : (if q.tail_ + 1 < q.capacity_ then q.tail_ + 1 else 0) ≠ q.head_) :
    ({ q with storage_ := q.storage_.set q.tail_ v,
              tail_ := if q.tail_ + 1 < q.capacity_ then q.tail_ + 1 else 0 } :
        ring_buffer T).count = q.count + 1 := by
  have hh := h.head
  have ht := h.tail
  unfold ring_buffer.count
  simp only []
  rw [mod_two_periods (q.tail_ + q.capacity_ - q.head_) q.capacity_ (by omega),
    mod_two_periods _ q.capacity_ (by split_ifs <;> omega)]
  split_ifs at hnf ⊢ <;> omega

theorem count_pop {T : Type} {q : ring_buffer T} (h : q.wf) (hne : q.head_ ≠ q.tail_) :
    q.count = ({ q with head_ := if q.head_ + 1 < q.capacity_ then q.head_ + 1 else 0 } :
        ring_buffer T).count + 1 := by
  have hh := h.head
  have ht := h.tail
  unfold ring_buffer.count
  simp only []
  rw [mod_two_periods (q.tail_ + q.capacity_ - q.head_) q.capacity_ (by omega),
    mod_two_periods _ q.capacity_ (by split_ifs <;> omega)]
  split_ifs <;> omega

theorem slot_lt_tail {T : Type} {q : ring_buffer T} (h : q.wf) (i : Nat) (hi : i < q.count) :
    (q.head_ + i) % q.capacity_ ≠ q.tail_ := by
  have hh := h.head
  have ht := h.tail
  have hc := count_lt h
  have hic : i < q.capacity_ := by omega
  rw [wf_count h] at hi
  rw [wf_slot h i hic]
  split_ifs at hi ⊢ <;> omega

theorem slot_count {T : Type} {q : ring_buffer T} (h : q.wf) :
    (q.head_ + q.count) % q.capacity_ = q.tail_ := by
  have hh := h.head
  have ht := h.tail
  have hc := count_lt h
  rw [wf_slot h q.count hc]
  rw [wf_count h] at hc ⊢
  split_ifs at hc ⊢ <;> omega

theorem contents_push {T : Type} [Inhabited T] {q : ring_buffer T} (h : q.wf) (v : T)
    (hnf : (if q.tail_ + 1 < q.capacity_ then q.tail_ + 1 else 0) ≠ q.head_) :
    ({ q with storage_ := q.storage_.set q.tail_ v,
              tail_ := if q.tail_ + 1 < q.capacity_ then q.tail_ + 1 else 0 } :
        ring_buffer T).contents = q.contents ++ [v] := by
  unfold ring_buffer.contents
  rw [count_push h v hnf, List.range_succ, List.map_append]
  congr 1
  · apply List.map_congr_left
    intro i hi
    have hlt : i < q.count := List.mem_range.mp hi
    have hne := slot_lt_tail h i hlt
    simp only [List.getD_eq_getElem?_getD]
    rw [List.getElem?_set_ne (Ne.symm hne)]
  · have ht : q.tail_ < q.storage_.length := by rw [h.len]; exact h.tail
    simp only [List.map_cons, List.map_nil, List.getD_eq_getElem?_getD]
    rw [slot_count h, List.getElem?_set, if_pos rfl, if_pos ht]
    rfl

theorem contents_pop {T : Type} [Inhabited T] {q : ring_buffer T} (h : q.wf)
    (hne : q.head_ ≠ q.tail_) :
    q.contents = q.storage_.getD q.head_ default ::
      ({ q with head_ := if q.head_ + 1 < q.capacity_ then q.head_ + 1 else 0 } :
        ring_buffer T).contents := by
  have hh := h.head
  unfold ring_buffer.contents
  rw [count_pop h hne, List.range_succ_eq_map, List.map_cons, List.map_map]
  congr 1
  · rw [Nat.add_zero, Nat.mod_eq_of_lt hh]
  · apply List.map_congr_left
    intro i _
    simp only [Function.comp]
    congr 1
    split_ifs with hlt
    · congr 1
      omega
    · have e : q.head_ + 1 = q.capacity_ := by omega
      have e2 : q.head_ + i.succ = q.capacity_ + i := by omega
      rw [e2, Nat.add_mod_left, Nat.zero_add]

theorem contents_empty {T : Type} [Inhabited T] {q : ring_buffer T} (h : q.wf)
    (he : q.head_ = q.tail_) : q.contents = [] := by
  unfold ring_buffer.contents
  rw [wf_count h, he]
  simp

/-! ## Constructed queues and sessions -/

theorem construct_wf {T : Type} [Inhabited T] (fuel max_slots n : Nat) (q : ring_buffer T)
    (h : ring_buffer.construct fuel max_slots n = Constructed.built q) :
    q.wf ∧ q.head_ = 0 ∧ q.tail_ = 0 ∧ n ≤ q.capacity_ := by
  obtain ⟨_, _, hnp, hq, _, _⟩ := construct_built fuel max_slots n q h
  obtain ⟨m, hm, hcap, hge, _⟩ := next_power_of_two_spec n fuel q.capacity_ hnp
  have hpos : 0 < q.capacity_ := by rw [hcap]; exact Nat.pos_pow_of_pos m (by norm_num)
  have hle : q.capacity_ ≤ 2 ^ 63 := by rw [hcap]; exact Nat.pow_le_pow_right (by norm_num) hm
  have h0 : q.head_ = 0 := by rw [hq]
  have t0 : q.tail_ = 0 := by rw [hq]
  have hmask : q.mask_ = q.capacity_ - 1 := by
    have e : q.mask_ = (q.capacity_ + SIZE_MOD - 1) % SIZE_MOD := by rw [hq]
    have e2 : q.capacity_ + SIZE_MOD - 1 = (q.capacity_ - 1) + SIZE_MOD := by omega
    have hs : (2 : Nat) ^ 63 < SIZE_MOD := by decide
    rw [e, e2, Nat.add_mod_right]
    exact Nat.mod_eq_of_lt (by omega)
  have hlen : q.storage_.length = q.capacity_ := by
    have e : q.storage_ = List.replicate q.capacity_ default := by rw [hq]
    rw [e, List.length_replicate]
  refine ⟨⟨⟨m, hm, hcap⟩, hmask, hlen, ?_, ?_⟩, h0, t0, ?_⟩
  · omega
  · omega
  · omega

theorem step_invariant {T : Type} [Inhabited T] (s : Session T) (c : Call T)
    (hwf : s.q.wf) (hinv : s.pushed = s.popped ++ s.q.contents) :
    (s.step c).q.wf ∧ (s.step c).pushed = (s.step c).popped ++ (s.step c).q.contents := by
  cases c with
  | push v =>
    refine ⟨push_wf hwf v, ?_⟩
    show (if (s.q.push v).1 then s.pushed ++ [v] else s.pushed)
      = s.popped ++ (s.q.push v).2.contents
    rw [push_of_wf hwf v]
    by_cases hc : (if s.q.tail_ + 1 < s.q.capacity_ then s.q.tail_ + 1 else 0) = s.q.head_
    · rw [if_pos hc]
      simpa using hinv
    · rw [if_neg hc]
      simp only [if_true]
      rw [contents_push hwf v hc, hinv, List.append_assoc]
  | pop =>
    refine ⟨pop_wf hwf s.value, ?_⟩
    show s.pushed = (if (s.q.pop s.value).1 then s.popped ++ [(s.q.pop s.value).2.1]
      else s.popped) ++ (s.q.pop s.value).2.2.contents
    rw [pop_of_wf hwf s.value]
    by_cases hc : s.q.head_ = s.q.tail_
    · rw [if_pos hc]
      simpa using hinv
    · rw [if_neg hc]
      simp only [if_true]
      rw [hinv, contents_pop hwf hc, List.append_assoc]
      rfl

theorem run_invariant {T : Type} [Inhabited T] (calls : List (Call T)) :
    ∀ s : Session T, s.q.wf → s.pushed = s.popped ++ s.q.contents →
      (s.run calls).q.wf ∧ (s.run calls).pushed = (s.run calls).popped ++ (s.run calls).q.contents := by
  induction calls with
  | nil => intro s hwf hinv; exact ⟨hwf, hinv⟩
  | cons c cs ih =>
    intro s hwf hinv
    obtain ⟨h1, h2⟩ := step_invariant s c hwf hinv
    exact ih (s.step c) h1 h2

theorem start_invariant {T : Type} [Inhabited T] (fuel max_slots n : Nat) (q : ring_buffer T)
    (h : ring_buffer.construct fuel max_slots n = Constructed.built q) :
    (Session.start q).q.wf ∧
      (Session.start q).pushed = (Session.start q).popped ++ (Session.start q).q.contents := by
  obtain ⟨hwf, h0, t0, _⟩ := construct_wf fuel max_slots n q h
  refine ⟨hwf, ?_⟩
  show ([] : List T) = [] ++ q.contents
  rw [contents_empty hwf (by rw [h0, t0])]
  rfl

theorem pop_empty {T : Type} [Inhabited T] (q : ring_buffer T) (x : T)
    (he : q.head_ = q.tail_) : q.pop x = (false, x, q) := by
  unfold ring_buffer.pop
  simp only [he, if_true]

theorem pop_times_empty {T : Type} [Inhabited T] (q : ring_buffer T)
    (he : q.head_ = q.tail_) (k : Nat) :
    ∀ x : T, q.pop_times x k = (List.replicate k false, q) := by
  induction k with
  | zero => intro x; rfl
  | succ k ih =>
    intro x
    rw [ring_buffer.pop_times, pop_empty q x he]
    simp only [ih x, List.replicate_succ]

theorem push_all_fresh {T : Type} (vs : List T) :
    ∀ q : ring_buffer T, q.wf → q.head_ = 0 → q.tail_ + vs.length + 1 ≤ q.capacity_ →
      (q.push_all vs).wf ∧ (q.push_all vs).head_ = 0 ∧
      (q.push_all vs).tail_ = q.tail_ + vs.length ∧
      (q.push_all vs).capacity_ = q.capacity_ ∧
      q.push_flags vs = List.replicate vs.length true := by
  induction vs with
  | nil => intro q hwf h0 _; exact ⟨hwf, h0, rfl, rfl, rfl⟩
  | cons v vs ih =>
    intro q hwf h0 hlen
    rw [List.length_cons] at hlen
    have hnf : ¬ (if q.tail_ + 1 < q.capacity_ then q.tail_ + 1 else 0) = q.head_ := by
      rw [if_pos (by omega), h0]
      omega
    have hp := push_of_wf hwf v
    rw [if_neg hnf, if_pos (by omega)] at hp
    have hwf2 := push_wf hwf v
    have hh2 : (q.push v).2.head_ = 0 := by rw [hp]; exact h0
    have ht2 : (q.push v).2.tail_ = q.tail_ + 1 := by rw [hp]
    have hc2 : (q.push v).2.capacity_ = q.capacity_ := by rw [hp]
    have hf2 : (q.push v).1 = true := by rw [hp]
    obtain ⟨a, b, c, d, e⟩ := ih (q.push v).2 hwf2 hh2 (by rw [ht2, hc2]; omega)
    have hpa : q.push_all (v :: vs) = (q.push v).2.push_all vs := rfl
    rw [hpa, ring_buffer.push_flags, hf2, e, List.length_cons, List.replicate_succ]
    refine ⟨a, b, ?_, ?_, rfl⟩
    · rw [c, ht2]; omega
    · rw [d, hc2]

/-! ## The harness -/

theorem of_values_snoc {T : Type} (std_hash : T → Nat) (vs : List T) (v : T) :
    hash_calculator.of_values std_hash (vs ++ [v])
      = (hash_calculator.of_values std_hash vs).set std_hash v := by
  unfold hash_calculator.of_values
  rw [List.foldl_append]
  rfl

theorem range_map_succ (k : Nat) :
    (List.range (k + 1)).map Int.ofNat = (List.range k).map Int.ofNat ++ [(k : Int)] := by
  rw [List.range_succ, List.map_append]
  rfl

theorem producer_step_inv (k_count : Nat) (std_hash : Int → Nat) (s : test_state)
    (h : test_inv k_count std_hash s) :
    test_inv k_count std_hash (producer_step k_count std_hash s) := by
  unfold producer_step
  by_cases hlt : s.p_i < k_count
  · rw [if_pos hlt]
    have hdig : (if s.p_retry then s.p_hash else s.p_hash.set std_hash (s.p_i : Int))
        = hash_calculator.of_values std_hash ((List.range (s.p_i + 1)).map Int.ofNat) := by
      rw [h.p_digest, range_map_succ, of_values_snoc]
      cases s.p_retry
      · simp only [Bool.false_eq_true, if_false]
      · simp only [if_true, range_map_succ, of_values_snoc]
    simp only [hdig]
    rw [push_of_wf h.wf]
    by_cases hfull : (if s.buffer.tail_ + 1 < s.buffer.capacity_ then s.buffer.tail_ + 1 else 0)
        = s.buffer.head_
    · rw [if_pos hfull]
      exact
        { wf := h.wf
          fifo := h.fifo
          p_le := h.p_le
          p_lt := fun _ => hlt
          p_digest := by simp
          c_len := h.c_len
          c_digest := h.c_digest }
    · rw [if_neg hfull]
      have hwf := push_wf h.wf (s.p_i : Int)
      rw [push_of_wf h.wf, if_neg hfull] at hwf
      exact
        { wf := hwf
          fifo := by
            simp only [if_true]
            rw [contents_push h.wf _ hfull, range_map_succ, h.fifo, List.append_assoc]
          p_le := by simp only [if_true]; omega
          p_lt := by simp
          p_digest := by simp
          c_len := h.c_len
          c_digest := h.c_digest }
  · rw [if_neg hlt]
    exact h

theorem consumer_step_inv (k_count : Nat) (std_hash : Int → Nat) (s : test_state)
    (h : test_inv k_count std_hash s) :
    test_inv k_count std_hash (consumer_step k_count std_hash s) := by
  unfold consumer_step
  by_cases hlt : s.c_i < k_count
  · rw [if_pos hlt, pop_of_wf h.wf]
    by_cases hemp : s.buffer.head_ = s.buffer.tail_
    · rw [if_pos hemp]
      simp only [Bool.false_eq_true, if_false]
      exact
        { wf := h.wf
          fifo := h.fifo
          p_le := h.p_le
          p_lt := h.p_lt
          p_digest := h.p_digest
          c_len := h.c_len
          c_digest := h.c_digest }
    · rw [if_neg hemp]
      simp only [if_true]
      have hwf := pop_wf h.wf s.c_value
      rw [pop_of_wf h.wf, if_neg hemp] at hwf
      exact
        { wf := hwf
          fifo := by
            rw [h.fifo, contents_pop h.wf hemp, List.append_assoc]
            rfl
          p_le := h.p_le
          p_lt := h.p_lt
          p_digest := h.p_digest
          c_len := by simp [h.c_len]
          c_digest := by
            simp only []
            rw [of_values_snoc, ← h.c_digest] }
  · rw [if_neg hlt]
    exact h

theorem test_run_inv (k_count : Nat) (std_hash : Int → Nat) (schedule : List Thread) :
    ∀ s, test_inv k_count std_hash s →
      test_inv k_count std_hash (test_run k_count std_hash schedule s) := by
  induction schedule with
  | nil => intro s h; exact h
  | cons t ts ih =>
    intro s h
    apply ih
    cases t
    · exact producer_step_inv k_count std_hash s h
    · exact consumer_step_inv k_count std_hash s h

theorem test_init_inv (fuel max_slots k_size k_count : Nat) (std_hash : Int → Nat)
    (s : test_state)
    (h : test_init fuel max_slots k_size = Constructed.built s) : test_inv k_count std_hash s := by
  unfold test_init at h
  cases hc : (ring_buffer.construct fuel max_slots k_size : Constructed (ring_buffer Int)) with
  | built q =>
    rw [hc] at h
    simp only [Constructed.built.injEq] at h
    obtain ⟨hwf, h0, t0, _⟩ := construct_wf fuel max_slots k_size q hc
    subst h
    exact
      { wf := hwf
        fifo := by
          show ([] : List Int) = [] ++ q.contents
          rw [contents_empty hwf (by rw [h0, t0])]
          rfl
        p_le := Nat.zero_le _
        p_lt := by simp
        p_digest := rfl
        c_len := rfl
        c_digest := rfl }
  | assert_failed => rw [hc] at h; simp at h
  | no_return => rw [hc] at h; simp at h
  | threw => rw [hc] at h; simp at h

theorem step_capacity {T : Type} [Inhabited T] (s : Session T) (c : Call T) :
    (s.step c).q.capacity_ = s.q.capacity_ := by
  cases c with
  | push v =>
    show (s.q.push v).2.capacity_ = s.q.capacity_
    unfold ring_buffer.push
    simp only []
    split <;> rfl
  | pop =>
    show (s.q.pop s.value).2.2.capacity_ = s.q.capacity_
    unfold ring_buffer.pop
    simp only []
    split <;> rfl

theorem run_capacity {T : Type} [Inhabited T] (calls : List (Call T)) :
    ∀ s : Session T, (s.run calls).q.capacity_ = s.q.capacity_ := by
  induction calls with
  | nil => intro s; rfl
  | cons c cs ih =>
    intro s
    exact (ih (s.step c)).trans (step_capacity s c)

/-! ## Claims -/

/-- C1: FIFO with no loss or duplication. For every queue `q` built by the
constructor with a requested capacity `n ≥ 1` and every finite sequence of
`push` and `pop` calls executed one at a time, the values delivered by the
successful pops are a prefix of the values given to the successful pushes, in
the same order; and when as many pops as pushes have succeeded the two
sequences are equal (so each pushed value was delivered exactly once: the two
are a permutation of each other). -/
theorem C1_fifo {T : Type} [Inhabited T] (n fuel max_slots : Nat) (q : ring_buffer T) (_ : 1 ≤ n)
    (hq : ring_buffer.construct fuel max_slots n = Constructed.built q) (calls : List (Call T)) :
    ((Session.start q).run calls).popped <+: ((Session.start q).run calls).pushed ∧
    (((Session.start q).run calls).popped.length = ((Session.start q).run calls).pushed.length →
      ((Session.start q).run calls).popped = ((Session.start q).run calls).pushed ∧
      List.Perm ((Session.start q).run calls).popped ((Session.start q).run calls).pushed) := by
  obtain ⟨h1, h2⟩ := start_invariant fuel max_slots n q hq
  obtain ⟨_, hinv⟩ := run_invariant calls (Session.start q) h1 h2
  have hpre : ((Session.start q).run calls).popped <+: ((Session.start q).run calls).pushed :=
    ⟨_, hinv.symm⟩
  refine ⟨hpre, fun hlen => ?_⟩
  have heq := List.IsPrefix.eq_of_length hpre hlen
  exact ⟨heq, by rw [heq]⟩

/-- Witness of C1: the queue built for a requested capacity 3 (capacity 4),
with pushes and pops interleaved past the wrap-around. -/
theorem C1_fifo_witness :
    ((Session.start (⟨4, 3, [0, 0, 0, 0], 0, 0⟩ : ring_buffer Int)).run
        [Call.push 1, Call.push 2, Call.push 3, Call.push 4, Call.pop, Call.push 5,
          Call.pop, Call.pop, Call.pop, Call.pop]).popped = [1, 2, 3, 5] ∧
      (ring_buffer.construct 64 4096 3 : Constructed (ring_buffer Int))
        = Constructed.built ⟨4, 3, [0, 0, 0, 0], 0, 0⟩ :=
  ⟨((C1_fifo 3 64 4096 (⟨4, 3, [0, 0, 0, 0], 0, 0⟩ : ring_buffer Int) (by decide) (by decide)
      [Call.push 1, Call.push 2, Call.push 3, Call.push 4, Call.pop, Call.push 5,
        Call.pop, Call.pop, Call.pop, Call.pop]).2 (by decide)).1.trans (by decide),
    by decide⟩

/-- C2, as stated, fails for a requested capacity of 1: the constructor builds
a queue of capacity 1 and mask 0; after `capacity_ - 1 = 0` pushes the next
push returns false, the pop that follows returns false, and the push after it
returns false again, where the claim says true. -/
theorem C2_full_capacity_one :
    (ring_buffer.construct 64 4096 1 : Constructed (ring_buffer Int))
        = Constructed.built ⟨1, 0, [0], 0, 0⟩ ∧
      ((⟨1, 0, [0], 0, 0⟩ : ring_buffer Int).push_all []).push 7
        = (false, ⟨1, 0, [0], 0, 0⟩) ∧
      (⟨1, 0, [0], 0, 0⟩ : ring_buffer Int).pop 0 = (false, 0, ⟨1, 0, [0], 0, 0⟩) ∧
      ((⟨1, 0, [0], 0, 0⟩ : ring_buffer Int).push 8).1 = false := by
  decide

/-- C2, amended: full predicate. For every queue built with a requested
capacity `n ≥ 1`, the `capacity_ - 1` pushes made on the fresh queue with no
pop all return true and the next push returns false; and when `n ≥ 2`, the
pop following that returns true and the push after it returns true. -/
theorem C2_full {T : Type} [Inhabited T] (n fuel max_slots : Nat) (q : ring_buffer T) (_ : 1 ≤ n)
    (hq : ring_buffer.construct fuel max_slots n = Constructed.built q)
    (vs : List T) (hvs : vs.length = q.capacity_ - 1) (v x w : T) :
    q.push_flags vs = List.replicate (q.capacity_ - 1) true ∧
    ((q.push_all vs).push v).1 = false ∧
    (2 ≤ n →
      (((q.push_all vs).push v).2.pop x).1 = true ∧
      ((((q.push_all vs).push v).2.pop x).2.2.push w).1 = true) := by
  obtain ⟨hwf, h0, t0, hge⟩ := construct_wf fuel max_slots n q hq
  have hpos := wf_cap_pos hwf
  obtain ⟨hwfQ, hQh, hQt, hQc, hfl⟩ := push_all_fresh vs q hwf h0 (by rw [t0, hvs]; omega)
  rw [t0, hvs, Nat.zero_add] at hQt
  have hfull : (if (q.push_all vs).tail_ + 1 < (q.push_all vs).capacity_
      then (q.push_all vs).tail_ + 1 else 0) = (q.push_all vs).head_ := by
    rw [if_neg (by rw [hQt, hQc]; omega), hQh]
  have hp := push_of_wf hwfQ v
  rw [if_pos hfull] at hp
  refine ⟨by rw [hfl, hvs], by rw [hp], fun h2 => ?_⟩
  have hne : (q.push_all vs).head_ ≠ (q.push_all vs).tail_ := by rw [hQh, hQt]; omega
  have hpo := pop_of_wf hwfQ x
  rw [if_neg hne, hQh, hQc, if_pos (by omega : 0 + 1 < q.capacity_)] at hpo
  have hwf3 := pop_wf hwfQ x
  rw [hp]
  refine ⟨by rw [hpo], ?_⟩
  have hp3 := push_of_wf hwf3 w
  have e1 : ((q.push_all vs).pop x).2.2.tail_ = q.capacity_ - 1 := by rw [hpo]; exact hQt
  have e2 : ((q.push_all vs).pop x).2.2.head_ = 1 := by rw [hpo]
  have e3 : ((q.push_all vs).pop x).2.2.capacity_ = q.capacity_ := by rw [hpo]
  rw [e1, e2, e3, if_neg (by omega : ¬ q.capacity_ - 1 + 1 < q.capacity_),
    if_neg (by omega : ¬ (0 = 1))] at hp3
  rw [hp3]

/-- Witness of C2: requested capacity 3, capacity 4, three pushes fill it. -/
theorem C2_full_witness :
    (⟨4, 3, [0, 0, 0, 0], 0, 0⟩ : ring_buffer Int).push_flags [5, 6, 7] = [true, true, true] ∧
    (((⟨4, 3, [0, 0, 0, 0], 0, 0⟩ : ring_buffer Int).push_all [5, 6, 7]).push 8).1 = false ∧
    (2 ≤ 3 →
      ((((⟨4, 3, [0, 0, 0, 0], 0, 0⟩ : ring_buffer Int).push_all [5, 6, 7]).push 8).2.pop 0).1
        = true ∧
      (((((⟨4, 3, [0, 0, 0, 0], 0, 0⟩ : ring_buffer Int).push_all [5, 6, 7]).push 8).2.pop
        0).2.2.push 9).1 = true) :=
  C2_full 3 64 4096 (⟨4, 3, [0, 0, 0, 0], 0, 0⟩ : ring_buffer Int) (by decide) (by decide)
    [5, 6, 7] (by decide) 8 0 9

/-- C3, as stated, fails for a requested capacity of 1: on the queue the
constructor builds (capacity 1, mask 0) the one push returns false and stores
nothing, and the pop after it returns false, where the claim says true. -/
theorem C3_empty_capacity_one :
    (ring_buffer.construct 64 4096 1 : Constructed (ring_buffer Int))
        = Constructed.built ⟨1, 0, [0], 0, 0⟩ ∧
      (⟨1, 0, [0], 0, 0⟩ : ring_buffer Int).push 7 = (false, ⟨1, 0, [0], 0, 0⟩) ∧
      (((⟨1, 0, [0], 0, 0⟩ : ring_buffer Int).push 7).2.pop 0).1 = false := by
  decide

/-- C3, amended: empty predicate. For every queue built with a requested
capacity `n ≥ 1`, `pop` on the fresh queue returns false (and changes
nothing); and when `n ≥ 2`: one push returns true, the pop after it returns
true and delivers the pushed value, any number `k` of further pops all return
false and change nothing, and after another push the next pop returns true
again and delivers that value. -/
theorem C3_empty {T : Type} [Inhabited T] (n fuel max_slots : Nat) (q : ring_buffer T) (_ : 1 ≤ n)
    (hq : ring_buffer.construct fuel max_slots n = Constructed.built q) (x y v w : T) (k : Nat) :
    q.pop x = (false, x, q) ∧
    (2 ≤ n →
      (q.push v).1 = true ∧
      ((q.push v).2.pop x).1 = true ∧
      ((q.push v).2.pop x).2.1 = v ∧
      ((q.push v).2.pop x).2.2.pop_times y k
        = (List.replicate k false, ((q.push v).2.pop x).2.2) ∧
      (((q.push v).2.pop x).2.2.push w).1 = true ∧
      ((((q.push v).2.pop x).2.2.push w).2.pop y).1 = true ∧
      ((((q.push v).2.pop x).2.2.push w).2.pop y).2.1 = w) := by
  obtain ⟨hwf, h0, t0, hge⟩ := construct_wf fuel max_slots n q hq
  refine ⟨pop_empty q x (by rw [h0, t0]), fun h2 => ?_⟩
  obtain ⟨c, m, st, hd, tl⟩ := q
  simp only at h0 t0 hge
  subst h0 t0
  have hlen : st.length = c := hwf.len
  -- the push
  have hp1 : (⟨c, m, st, 0, 0⟩ : ring_buffer T).push v = (true, ⟨c, m, st.set 0 v, 0, 1⟩) := by
    rw [push_of_wf hwf v]
    simp only [Nat.zero_add, if_pos (by omega : 1 < c), if_neg (by omega : ¬ (1 = 0))]
  have hwf1 : (⟨c, m, st.set 0 v, 0, 1⟩ : ring_buffer T).wf := by
    have := push_wf hwf v
    rwa [hp1] at this
  -- the pop that follows
  have hv : (st.set 0 v).getD 0 default = v := by
    simp only [List.getD_eq_getElem?_getD]
    rw [List.getElem?_set, if_pos rfl, if_pos (by omega)]
    rfl
  have hp2 : (⟨c, m, st.set 0 v, 0, 1⟩ : ring_buffer T).pop x
      = (true, v, ⟨c, m, st.set 0 v, 1, 1⟩) := by
    rw [pop_of_wf hwf1 x]
    simp only [Nat.zero_add, if_pos (by omega : 1 < c), if_neg (by omega : ¬ (0 = 1)), hv]
  have hwf2 : (⟨c, m, st.set 0 v, 1, 1⟩ : ring_buffer T).wf := by
    have := pop_wf hwf1 x
    rwa [hp2] at this
  -- another push and its pop
  have hp3 : (⟨c, m, st.set 0 v, 1, 1⟩ : ring_buffer T).push w
      = (true, ⟨c, m, (st.set 0 v).set 1 w, 1, if 1 + 1 < c then 1 + 1 else 0⟩) := by
    rw [push_of_wf hwf2 w]
    have hne : ¬ (if 1 + 1 < c then 1 + 1 else 0) = 1 := by split <;> omega
    simp only [if_neg hne]
  have hwf3 : (⟨c, m, (st.set 0 v).set 1 w, 1, if 1 + 1 < c then 1 + 1 else 0⟩ :
      ring_buffer T).wf := by
    have := push_wf hwf2 w
    rwa [hp3] at this
  have hw : ((st.set 0 v).set 1 w).getD 1 default = w := by
    simp only [List.getD_eq_getElem?_getD]
    rw [List.getElem?_set, if_pos rfl, if_pos (by rw [List.length_set]; omega)]
    rfl
  have hp4 : ((⟨c, m, (st.set 0 v).set 1 w, 1, if 1 + 1 < c then 1 + 1 else 0⟩ :
      ring_buffer T).pop y).1 = true ∧
      ((⟨c, m, (st.set 0 v).set 1 w, 1, if 1 + 1 < c then 1 + 1 else 0⟩ :
      ring_buffer T).pop y).2.1 = w := by
    rw [pop_of_wf hwf3 y]
    have hne : ¬ 1 = (if 1 + 1 < c then 1 + 1 else 0) := by split <;> omega
    simp only [if_neg hne, hw, and_self]
  rw [hp1, hp2, hp3]
  exact ⟨rfl, rfl, rfl, pop_times_empty _ rfl k y, rfl, hp4.1, hp4.2⟩

/-- Witness of C3: requested capacity 2 (capacity 2, one usable slot). -/
theorem C3_empty_witness :
    (ring_buffer.construct 64 4096 2 : Constructed (ring_buffer Int))
        = Constructed.built ⟨2, 1, [0, 0], 0, 0⟩ ∧
    (⟨2, 1, [0, 0], 0, 0⟩ : ring_buffer Int).pop 3 = (false, 3, ⟨2, 1, [0, 0], 0, 0⟩) ∧
    (((⟨2, 1, [0, 0], 0, 0⟩ : ring_buffer Int).push 5).2.pop 3).2.1 = 5 ∧
    (((⟨2, 1, [0, 0], 0, 0⟩ : ring_buffer Int).push 5).2.pop 3).2.2.pop_times 4 2
      = ([false, false], (((⟨2, 1, [0, 0], 0, 0⟩ : ring_buffer Int).push 5).2.pop 3).2.2) :=
  have h := C3_empty 2 64 4096 (⟨2, 1, [0, 0], 0, 0⟩ : ring_buffer Int) (by decide) (by decide)
    3 4 5 6 2
  ⟨by decide, h.1, (h.2 (by decide)).2.2.1, (h.2 (by decide)).2.2.2.1⟩

/-- C4, as stated, fails at the top of the range of `size_t`. For a
requested capacity of `2 ^ 63 + 1` the loop of `next_power_of_two` shifts
`power` from `2 ^ 63` to 0 and never ends, so no amount of fuel makes the
routine return a value or the constructor build a queue. For a requested
capacity of `2 ^ 63` the routine returns `2 ^ 63`, more than `PTRDIFF_MAX`
elements, and the initialiser `storage_(capacity_)` throws whatever the
memory of the environment: no capacity is stored. -/
theorem C4_no_capacity_above_half_range :
    (¬ ∃ fuel cap, ring_buffer.next_power_of_two fuel (2 ^ 63 + 1) = some cap) ∧
    (¬ ∃ fuel max_slots, ∃ q : ring_buffer Int,
      ring_buffer.construct fuel max_slots (2 ^ 63 + 1) = Constructed.built q) ∧
    (∀ fuel max_slots, 64 ≤ fuel →
      (ring_buffer.construct fuel max_slots (2 ^ 63) : Constructed (ring_buffer Int))
        = Constructed.threw) := by
  refine ⟨?_, ?_, ?_⟩
  · rintro ⟨fuel, cap, h⟩
    rw [next_power_of_two_large (2 ^ 63 + 1) fuel (by omega)] at h
    exact absurd h (by simp)
  · rintro ⟨fuel, max_slots, q, h⟩
    have := (construct_built fuel max_slots (2 ^ 63 + 1) q h).2.1
    omega
  · intro fuel max_slots hf
    exact construct_top fuel max_slots hf

/-- C4, amended: capacity rounding. For every requested capacity `n` with
`1 ≤ n ≤ 2 ^ 63`, `next_power_of_two(n)` returns (64 units of fuel are
enough) a power of two that is at least `n` and is the smallest such power of
two, hence `n` itself when `n` is a power of two: 1024 for 1000, 1024 for
1024 and 1 for 1. The constructor stores that value as `capacity_` whenever a
vector of that many elements can be created (the value is at most `max_slots`
and at most `PTRDIFF_MAX`); otherwise the initialiser `storage_(capacity_)`
throws and no queue is built. -/
theorem C4_capacity_rounding {T : Type} [Inhabited T] (n fuel max_slots : Nat) (h1 : 1 ≤ n)
    (h2 : n ≤ 2 ^ 63) (hf : 64 ≤ fuel) :
    ∃ cap, ring_buffer.next_power_of_two fuel n = some cap ∧
      (∃ m, cap = 2 ^ m) ∧
      n ≤ cap ∧
      (∀ m, n ≤ 2 ^ m → cap ≤ 2 ^ m) ∧
      ((∃ m, n = 2 ^ m) → cap = n) ∧
      (n = 1000 → cap = 1024) ∧ (n = 1024 → cap = 1024) ∧ (n = 1 → cap = 1) ∧
      (cap ≤ max_slots → cap ≤ PTRDIFF_MAX →
        ∃ q : ring_buffer T,
          ring_buffer.construct fuel max_slots n = Constructed.built q ∧ q.capacity_ = cap) ∧
      (¬ (cap ≤ max_slots ∧ cap ≤ PTRDIFF_MAX) →
        (ring_buffer.construct fuel max_slots n : Constructed (ring_buffer T))
          = Constructed.threw) := by
  obtain ⟨m, hm, hres, hge, hmin⟩ := next_power_of_two_small n fuel h2 hf
  have hsmallest : ∀ j, n ≤ 2 ^ j → 2 ^ m ≤ 2 ^ j := by
    intro j hj
    apply Nat.pow_le_pow_right (by norm_num)
    by_contra hc
    have := hmin j (by omega)
    omega
  have hpow : ∀ j, n = 2 ^ j → 2 ^ m = n := by
    intro j hj
    have := hsmallest j (by omega)
    omega
  have hcon := construct_of_rounded (T := T) fuel max_slots n (2 ^ m) hres
  refine ⟨2 ^ m, hres, ⟨m, rfl⟩, hge, hsmallest, ?_, ?_, ?_, ?_, ?_, ?_⟩
  · rintro ⟨j, hj⟩
    exact hpow j hj
  · intro h
    have h512 := hmin 9
    have h1024 := hsmallest 10 (by omega)
    have hm10 : m ≤ 10 := (Nat.pow_le_pow_iff_right (by norm_num)).mp h1024
    have hm9 : ¬ m ≤ 9 := by
      intro hle
      have : (2 : Nat) ^ m ≤ 2 ^ 9 := Nat.pow_le_pow_right (by norm_num) hle
      omega
    have : m = 10 := by omega
    subst this
    rfl
  · intro h
    exact (hpow 10 (by omega)).trans h
  · intro h
    exact (hpow 0 (by omega)).trans h
  · intro hs hp
    rw [hcon, if_pos ⟨hs, hp⟩, if_pos (by omega : n > 0)]
    exact ⟨_, rfl, rfl⟩
  · intro hno
    rw [hcon, if_neg hno]

/-- Witness of C4: a requested capacity of 1000 is rounded up to 1024, and
with room for 4096 elements the queue is built with that capacity. -/
theorem C4_capacity_rounding_witness :
    ring_buffer.next_power_of_two 64 1000 = some 1024 ∧
    ∃ q : ring_buffer Int,
      ring_buffer.construct 64 4096 1000 = Constructed.built q ∧ q.capacity_ = 1024 :=
  have ⟨cap, hnp, _, _, _, _, h1000, _, _, hbuilt, _⟩ :=
    C4_capacity_rounding (T := Int) 1000 64 4096 (by decide) (by decide) (by decide)
  have hcap : cap = 1024 := h1000 rfl
  ⟨hcap ▸ hnp, hcap ▸ hbuilt (hcap ▸ (by decide)) (hcap ▸ (by decide))⟩

/-- C5: `push` fails exactly when the queue is full and is then a no-op. For
every queue state and every value, `push` returns false if and only if
`((tail + 1) & mask) == head`; in that case the object (head, tail and every
storage slot) is left as it was; otherwise it returns true, writes the value
into slot `tail` (the storage is the old one with slot `tail` replaced, and
reading that slot back gives the value) and sets tail to `(tail + 1) & mask`,
head staying as it was. -/
theorem C5_push_full_noop {T : Type} (q : ring_buffer T) (v : T) :
    ((q.push v).1 = false ↔ (((q.tail_ + 1) % SIZE_MOD) &&& q.mask_) = q.head_) ∧
    ((q.push v).1 = false → (q.push v).2 = q) ∧
    (¬ (q.push v).1 = false →
      (q.push v).1 = true ∧
      (q.push v).2.storage_ = q.storage_.set q.tail_ v ∧
      (q.tail_ < q.storage_.length → (q.push v).2.storage_[q.tail_]? = some v) ∧
      (q.push v).2.tail_ = (((q.tail_ + 1) % SIZE_MOD) &&& q.mask_) ∧
      (q.push v).2.head_ = q.head_) := by
  unfold ring_buffer.push
  by_cases h : (((q.tail_ + 1) % SIZE_MOD) &&& q.mask_) = q.head_
  · simp only [h, if_true, true_iff, not_true_eq_false, false_implies, and_self, implies_true]
  · simp only [h, if_false, Bool.true_eq_false, false_iff, not_false_eq_true, false_implies,
      true_implies, true_and]
    refine ⟨fun hlt => ?_, trivial⟩
    rw [List.getElem?_set, if_pos rfl, if_pos hlt]

/-- C6: `pop` fails exactly when the queue is empty and is then a no-op. For
every queue state and every content `x` of the caller's output variable,
`pop` returns false if and only if `head == tail`; in that case the object
and the output variable are left as they were; otherwise it returns true,
the output variable receives the value of slot `head`, head becomes
`(head + 1) & mask` and tail stays as it was. -/
theorem C6_pop_empty_noop {T : Type} [Inhabited T] (q : ring_buffer T) (x : T) :
    ((q.pop x).1 = false ↔ q.head_ = q.tail_) ∧
    ((q.pop x).1 = false → (q.pop x).2.1 = x ∧ (q.pop x).2.2 = q) ∧
    (¬ (q.pop x).1 = false →
      (q.pop x).1 = true ∧
      (q.pop x).2.1 = q.storage_.getD q.head_ default ∧
      (q.head_ < q.storage_.length → q.storage_[q.head_]? = some (q.pop x).2.1) ∧
      (q.pop x).2.2.head_ = (((q.head_ + 1) % SIZE_MOD) &&& q.mask_) ∧
      (q.pop x).2.2.tail_ = q.tail_) := by
  unfold ring_buffer.pop
  by_cases h : q.head_ = q.tail_
  · simp only [h, if_true, true_iff, not_true_eq_false, false_implies, and_self, implies_true]
  · simp only [h, if_false, Bool.true_eq_false, false_iff, not_false_eq_true, false_implies,
      true_implies, true_and]
    refine ⟨fun hlt => ?_, trivial⟩
    simp only [List.getD_eq_getElem?_getD]
    rw [List.getElem?_eq_getElem hlt]
    rfl

/-- C7, as stated, fails: construction with a requested capacity `n ≥ 1` can
fail. For `n = 2 ^ 63` the rounded capacity is `2 ^ 63`, more than
`PTRDIFF_MAX` elements, so the initialiser `storage_(capacity_)` throws
`std::length_error` whatever the memory of the environment, and no queue is
ever built. With room for 1000 elements only, already `n = 1000` fails: the
rounded capacity 1024 cannot be allocated. -/
theorem C7_construction_can_throw :
    (∀ fuel max_slots, 64 ≤ fuel →
      (ring_buffer.construct fuel max_slots (2 ^ 63) : Constructed (ring_buffer Int))
        = Constructed.threw) ∧
    (¬ ∃ fuel max_slots, ∃ q : ring_buffer Int,
      ring_buffer.construct fuel max_slots (2 ^ 63) = Constructed.built q) ∧
    (ring_buffer.construct 64 1000 1000 : Constructed (ring_buffer Int))
      = Constructed.threw := by
  refine ⟨fun fuel max_slots hf => construct_top fuel max_slots hf, ?_, by decide⟩
  rintro ⟨fuel, max_slots, q, h⟩
  obtain ⟨_, _, hnp, _, _, hp⟩ := construct_built fuel max_slots (2 ^ 63) q h
  obtain ⟨m, _, hcap, hge, _⟩ := next_power_of_two_spec (2 ^ 63) fuel q.capacity_ hnp
  have : PTRDIFF_MAX = 2 ^ 63 - 1 := rfl
  omega

/-- C7, amended: construction rejection. Constructing with a requested
capacity of 0 never builds a queue and, given one unit of fuel to evaluate
the loop condition, never hangs: it ends in the failed `assert(capacity > 0)`
(after the one-slot storage has been created; in its `std::bad_alloc` when
not even one element can be allocated). Constructing with a requested
capacity `n ≥ 1` never ends in the failed assertion, and it builds a queue
whenever some power of two that is at least `n` and at most `2 ^ 62` is a
number of elements the storage vector can be created with. -/
theorem C7_construction_rejection {T : Type} [Inhabited T] :
    (∀ fuel max_slots, 1 ≤ fuel → 1 ≤ max_slots →
      (ring_buffer.construct fuel max_slots 0 : Constructed (ring_buffer T))
        = Constructed.assert_failed) ∧
    (∀ fuel, 1 ≤ fuel →
      (ring_buffer.construct fuel 0 0 : Constructed (ring_buffer T)) = Constructed.threw) ∧
    (∀ fuel max_slots, ∀ q : ring_buffer T,
      ring_buffer.construct fuel max_slots 0 ≠ Constructed.built q) ∧
    (∀ n fuel max_slots, 1 ≤ n →
      (ring_buffer.construct fuel max_slots n : Constructed (ring_buffer T))
        ≠ Constructed.assert_failed) ∧
    (∀ n fuel max_slots m, 1 ≤ n → 64 ≤ fuel → n ≤ 2 ^ m → m ≤ 62 → 2 ^ m ≤ max_slots →
      ∃ q : ring_buffer T,
        ring_buffer.construct fuel max_slots n = Constructed.built q) := by
  have hzero : ∀ fuel, 1 ≤ fuel → ring_buffer.next_power_of_two fuel 0 = some 1 := by
    intro fuel hf
    obtain ⟨f, rfl⟩ : ∃ f, fuel = f + 1 := ⟨fuel - 1, by omega⟩
    rfl
  have hp : PTRDIFF_MAX = 2 ^ 63 - 1 := rfl
  refine ⟨?_, ?_, ?_, ?_, ?_⟩
  · intro fuel max_slots hf hm
    rw [construct_of_rounded fuel max_slots 0 1 (hzero fuel hf),
      if_pos ⟨hm, by rw [hp]; norm_num⟩, if_neg (by omega)]
  · intro fuel hf
    rw [construct_of_rounded fuel 0 0 1 (hzero fuel hf), if_neg (by omega)]
  · intro fuel max_slots q h
    have := (construct_built fuel max_slots 0 q h).1
    omega
  · intro n fuel max_slots hn
    cases hnp : ring_buffer.next_power_of_two fuel n with
    | none =>
      unfold ring_buffer.construct
      rw [hnp]
      simp
    | some cap =>
      rw [construct_of_rounded fuel max_slots n cap hnp]
      split
      · rw [if_pos (by omega : n > 0)]
        simp
      · simp
  · intro n fuel max_slots m h1 hf hle hm hroom
    have h62 : (2 : Nat) ^ m ≤ 2 ^ 62 := Nat.pow_le_pow_right (by norm_num) hm
    obtain ⟨k, _, hres, _, hmin⟩ := next_power_of_two_small n fuel (by omega) hf
    have hk : (2 : Nat) ^ k ≤ 2 ^ m := by
      apply Nat.pow_le_pow_right (by norm_num)
      by_contra hc
      have := hmin m (by omega)
      omega
    rw [construct_of_rounded fuel max_slots n (2 ^ k) hres,
      if_pos ⟨by omega, by rw [hp]; omega⟩, if_pos (by omega : n > 0)]
    exact ⟨_, rfl⟩

/-- Witness of C7: requested capacities 0 and 1000 with room for 4096
elements; the first ends in the failed assertion, the second builds a queue. -/
theorem C7_construction_rejection_witness :
    (ring_buffer.construct 64 4096 0 : Constructed (ring_buffer Int))
      = Constructed.assert_failed ∧
    ∃ q : ring_buffer Int, ring_buffer.construct 64 4096 1000 = Constructed.built q :=
  ⟨(C7_construction_rejection (T := Int)).1 64 4096 (by decide) (by decide),
    (C7_construction_rejection (T := Int)).2.2.2.2 1000 64 4096 10 (by decide) (by decide)
      (by decide) (by decide) (by decide)⟩

/-- C8: harness conformance. Take the queue that `test()` builds with the
requested capacity 1024, any `k_count = N`, any `std::hash<int>` and any
finite interleaving of whole `push` and `pop` calls of the producer thread
(pushing 0, 1, ..., N-1 in order and retrying a value whose push returned
false) and of the consumer thread (retrying a pop that returned false). Once
the consumer has made `N` successful pops, the values it collected are
exactly 0, 1, ..., N-1 in order, the producer has finished too, the
consumer's digest is the digest of the collected values, the producer's is
the digest of 0, ..., N-1, the two are equal, and `test()` does not throw. -/
theorem C8_harness (std_hash : Int → Nat) (fuel max_slots N : Nat) (s0 : test_state)
    (h0 : test_init fuel max_slots 1024 = Constructed.built s0) (schedule : List Thread)
    (hdone : (test_run N std_hash schedule s0).c_i = N) :
    (test_run N std_hash schedule s0).collected = (List.range N).map Int.ofNat ∧
    (test_run N std_hash schedule s0).p_i = N ∧
    (test_run N std_hash schedule s0).c_hash
      = hash_calculator.of_values std_hash (test_run N std_hash schedule s0).collected ∧
    (test_run N std_hash schedule s0).p_hash
      = hash_calculator.of_values std_hash ((List.range N).map Int.ofNat) ∧
    (test_run N std_hash schedule s0).c_hash.value
      = (test_run N std_hash schedule s0).p_hash.value ∧
    test_throws (test_run N std_hash schedule s0) = false := by
  have inv := test_run_inv N std_hash schedule s0 (test_init_inv fuel max_slots 1024 N std_hash s0 h0)
  generalize test_run N std_hash schedule s0 = s at inv hdone
  have hlen := congrArg List.length inv.fifo
  rw [List.length_map, List.length_range, List.length_append, inv.c_len, hdone] at hlen
  have hle := inv.p_le
  have hpi : s.p_i = N := by omega
  have hnil : s.buffer.contents = [] := List.eq_nil_of_length_eq_zero (by omega)
  have hcol : s.collected = (List.range N).map Int.ofNat := by
    have := inv.fifo
    rw [hnil, List.append_nil, hpi] at this
    exact this.symm
  have hretry : s.p_retry = false := by
    cases hr : s.p_retry with
    | false => rfl
    | true => have := inv.p_lt hr; omega
  have hp : s.p_hash = hash_calculator.of_values std_hash ((List.range N).map Int.ofNat) := by
    have := inv.p_digest
    rw [hretry, hpi] at this
    simpa using this
  have hc : s.c_hash = s.p_hash := by rw [hp, inv.c_digest, hcol]
  refine ⟨hcol, hpi, inv.c_digest, hp, by rw [hc], ?_⟩
  unfold test_throws
  rw [hc]
  simp

set_option maxRecDepth 100000 in
/-- Witness of C8: `k_count = 2`, the identity as `std::hash<int>`, and a
schedule in which the first pop finds the queue empty. -/
theorem C8_harness_witness :
    (test_run 2 Int.toNat
        [Thread.consumer, Thread.producer, Thread.producer, Thread.consumer, Thread.consumer]
        ⟨⟨1024, 1023, List.replicate 1024 0, 0, 0⟩, ⟨0⟩, 0, false, ⟨0⟩, 0, 0, []⟩).collected
      = [0, 1] :=
  (C8_harness Int.toNat 64 4096 2
    ⟨⟨1024, 1023, List.replicate 1024 0, 0, 0⟩, ⟨0⟩, 0, false, ⟨0⟩, 0, 0, []⟩
    (by decide)
    [Thread.consumer, Thread.producer, Thread.producer, Thread.consumer, Thread.consumer]
    (by decide)).1

/-- C10: cursor bounds invariant. For every queue built with a requested
capacity `n ≥ 1`, `head_ < capacity_` and `tail_ < capacity_` hold on the
fresh queue and after every finite sequence of `push` and `pop` calls,
whatever each call returned (and `capacity_` is still the one the
constructor stored); `0 ≤ head_` and `0 ≤ tail_` hold as the cursors are
unsigned. -/
theorem C10_cursor_bounds {T : Type} [Inhabited T] (n fuel max_slots : Nat) (q : ring_buffer T)
    (_ : 1 ≤ n) (hq : ring_buffer.construct fuel max_slots n = Constructed.built q)
    (calls : List (Call T)) :
    (0 ≤ q.head_ ∧ q.head_ < q.capacity_ ∧ 0 ≤ q.tail_ ∧ q.tail_ < q.capacity_) ∧
    ((Session.start q).run calls).q.capacity_ = q.capacity_ ∧
    0 ≤ ((Session.start q).run calls).q.head_ ∧
    ((Session.start q).run calls).q.head_ < q.capacity_ ∧
    0 ≤ ((Session.start q).run calls).q.tail_ ∧
    ((Session.start q).run calls).q.tail_ < q.capacity_ := by
  obtain ⟨h1, h2⟩ := start_invariant fuel max_slots n q hq
  obtain ⟨hwf, _⟩ := run_invariant calls (Session.start q) h1 h2
  have hcap : ((Session.start q).run calls).q.capacity_ = q.capacity_ :=
    run_capacity calls (Session.start q)
  have hh := hwf.head
  have ht := hwf.tail
  rw [hcap] at hh ht
  exact ⟨⟨Nat.zero_le _, h1.head, Nat.zero_le _, h1.tail⟩, hcap, Nat.zero_le _, hh,
    Nat.zero_le _, ht⟩

/-- Witness of C10: requested capacity 3 (capacity 4), with the tail cursor
wrapping from 3 back to 0. -/
theorem C10_cursor_bounds_witness :
    ((Session.start (⟨4, 3, [0, 0, 0, 0], 0, 0⟩ : ring_buffer Int)).run
      [Call.push 1, Call.push 2, Call.pop, Call.push 3, Call.push 4, Call.push 5]).q.tail_
        < 4 ∧
    ((Session.start (⟨4, 3, [0, 0, 0, 0], 0, 0⟩ : ring_buffer Int)).run
      [Call.push 1, Call.push 2, Call.pop, Call.push 3, Call.push 4, Call.push 5]).q.tail_
        = 0 :=
  ⟨(C10_cursor_bounds 3 64 4096 (⟨4, 3, [0, 0, 0, 0], 0, 0⟩ : ring_buffer Int) (by decide)
      (by decide)
      [Call.push 1, Call.push 2, Call.pop, Call.push 3, Call.push 4, Call.push 5]).2.2.2.2.2,
    by decide⟩

/-! ## Frame, masks and the queue of capacity one -/

theorem capacity_one_calls {T : Type} [Inhabited T] (q : ring_buffer T) (hwf : q.wf)
    (hc : q.capacity_ = 1) (v x : T) : q.push v = (false, q) ∧ q.pop x = (false, x, q) := by
  have hh := hwf.head
  have ht := hwf.tail
  refine ⟨?_, pop_empty q x (by omega)⟩
  rw [push_of_wf hwf v, if_neg (by omega : ¬ q.tail_ + 1 < q.capacity_), if_pos (by omega)]

theorem capacity_one_run {T : Type} [Inhabited T] (calls : List (Call T)) :
    ∀ s : Session T, s.q.wf → s.q.capacity_ = 1 → s.run calls = s := by
  induction calls with
  | nil => intro s _ _; rfl
  | cons c cs ih =>
    intro s hwf hc
    have hstep : s.step c = s := by
      obtain ⟨hpush, hpop⟩ := capacity_one_calls s.q hwf hc default s.value
      cases c with
      | push v =>
        have hv := (capacity_one_calls s.q hwf hc v s.value).1
        show ({ s with q := (s.q.push v).2,
                       pushed := if (s.q.push v).1 then s.pushed ++ [v] else s.pushed } :
          Session T) = s
        rw [hv]
        rfl
      | pop =>
        show ({ s with q := (s.q.pop s.value).2.2, value := (s.q.pop s.value).2.1,
                       popped := if (s.q.pop s.value).1
                         then s.popped ++ [(s.q.pop s.value).2.1] else s.popped } :
          Session T) = s
        rw [hpop]
        rfl
    show (s.step c).run cs = s
    rw [hstep]
    exact ih s hwf hc

theorem construct_one {T : Type} [Inhabited T] (fuel max_slots : Nat) (q : ring_buffer T)
    (hq : ring_buffer.construct fuel max_slots 1 = Constructed.built q) :
    q.capacity_ = 1 ∧ q.mask_ = 0 := by
  obtain ⟨_, _, hnp, _⟩ := construct_built fuel max_slots 1 q hq
  obtain ⟨m, _, hcap, _, hmin⟩ := next_power_of_two_spec 1 fuel q.capacity_ hnp
  have hwf := (construct_wf fuel max_slots 1 q hq).1
  have hm : m = 0 := by
    by_contra hne
    have h0 := hmin 0 (by omega)
    omega
  subst hm
  have hc : q.capacity_ = 1 := by rw [hcap]; rfl
  exact ⟨hc, by rw [hwf.mask, hc]⟩

theorem loop_skip (n fuel : Nat) (hn : 2 ^ 63 < n) (k : Nat) :
    ∀ j, j + k ≤ 63 →
      ring_buffer.next_power_of_two_loop (fuel + k) (2 ^ j) n
        = ring_buffer.next_power_of_two_loop fuel (2 ^ (j + k)) n := by
  induction k with
  | zero => intro j _; rfl
  | succ k ih =>
    intro j hj
    have hp : (2 : Nat) ^ j ≤ 2 ^ 63 := Nat.pow_le_pow_right (by norm_num) (by omega)
    have e : fuel + (k + 1) = (fuel + k) + 1 := by omega
    rw [e, ring_buffer.next_power_of_two_loop, if_pos (by omega), shift_one_wrap j (by omega),
      ih (j + 1) (by omega)]
    congr 2
    omega

theorem next_power_of_two_fixed (n : Nat) (hn : n ≤ 2 ^ 63) :
    ∃ r, ∀ fuel, 64 ≤ fuel → ring_buffer.next_power_of_two fuel n = some r := by
  obtain ⟨m, _, hres, _, _⟩ := next_power_of_two_small n 64 hn (by omega)
  refine ⟨2 ^ m, fun fuel hf => ?_⟩
  have h := loop_mono n 64 1 (2 ^ m) hres (fuel - 64)
  have e : 64 + (fuel - 64) = fuel := by omega
  rw [e] at h
  exact h

/-- C13: cursor ownership. For every queue state, every value and every
content of the output variable: `push`, whatever it returns, leaves `head_`
unchanged and leaves every storage slot other than slot `tail_` unchanged
(the number of slots too); `pop`, whatever it returns, leaves `tail_`
unchanged; neither operation changes `capacity_` or `mask_`. -/
theorem C13_cursor_ownership {T : Type} [Inhabited T] (q : ring_buffer T) (v x : T) :
    (q.push v).2.head_ = q.head_ ∧
    (∀ i, i ≠ q.tail_ → (q.push v).2.storage_[i]? = q.storage_[i]?) ∧
    (q.push v).2.storage_.length = q.storage_.length ∧
    (q.pop x).2.2.tail_ = q.tail_ ∧
    (q.push v).2.capacity_ = q.capacity_ ∧ (q.push v).2.mask_ = q.mask_ ∧
    (q.pop x).2.2.capacity_ = q.capacity_ ∧ (q.pop x).2.2.mask_ = q.mask_ := by
  unfold ring_buffer.push ring_buffer.pop
  simp only []
  refine ⟨?_, ?_, ?_, ?_, ?_, ?_, ?_, ?_⟩
  · split <;> rfl
  · intro i hi
    split
    · rfl
    · exact List.getElem?_set_ne (Ne.symm hi)
  · split
    · rfl
    · exact List.length_set _ _ _
  · split <;> rfl
  · split <;> rfl
  · split <;> rfl
  · split <;> rfl
  · split <;> rfl

/-- C14, as stated, fails: called with 0, `next_power_of_two` does not loop
forever; it is not true that it is still running whatever the fuel. -/
theorem C14_zero_does_not_loop :
    ¬ ∀ fuel, ring_buffer.next_power_of_two fuel 0 = none := by
  intro h
  exact absurd (h 1) (by decide)

/-- C14, amended: called with a capacity of zero, `next_power_of_two`
terminates and returns 1: the loop condition `power < n` is `1 < 0`, false
at its first evaluation, so one unit of fuel is enough and the loop body is
never executed. -/
theorem C14_zero_returns_one :
    ∀ fuel, ring_buffer.next_power_of_two (fuel + 1) 0 = some 1 := by
  intro fuel
  rfl

/-- C16: a queue built with a requested capacity of 1 has capacity 1 and
mask 0 and can never hold an element: after every finite sequence of `push`
and `pop` calls the object is still the one the constructor built, nothing
was pushed and nothing was popped, and the next push returns false and the
next pop returns false. -/
theorem C16_capacity_one_holds_nothing {T : Type} [Inhabited T]
    (fuel max_slots : Nat)
    (q : ring_buffer T) (hq : ring_buffer.construct fuel max_slots 1 = Constructed.built q)
    (calls : List (Call T)) (v x : T) :
    q.capacity_ = 1 ∧ q.mask_ = 0 ∧
    ((Session.start q).run calls).q = q ∧
    ((Session.start q).run calls).pushed = [] ∧
    ((Session.start q).run calls).popped = [] ∧
    (((Session.start q).run calls).q.push v).1 = false ∧
    (((Session.start q).run calls).q.pop x).1 = false := by
  obtain ⟨hc, hm⟩ := construct_one fuel max_slots q hq
  have hwf := (construct_wf fuel max_slots 1 q hq).1
  have hrun := capacity_one_run calls (Session.start q) hwf hc
  obtain ⟨hpush, hpop⟩ := capacity_one_calls q hwf hc v x
  rw [hrun]
  refine ⟨hc, hm, rfl, rfl, rfl, ?_, ?_⟩
  · show (q.push v).1 = false
    rw [hpush]
  · show (q.pop x).1 = false
    rw [hpop]

/-- Witness of C16: the queue built for a requested capacity of 1, after two
pushes and a pop. -/
theorem C16_capacity_one_holds_nothing_witness :
    (ring_buffer.construct 64 4096 1 : Constructed (ring_buffer Int))
      = Constructed.built ⟨1, 0, [0], 0, 0⟩ ∧
    ((Session.start (⟨1, 0, [0], 0, 0⟩ : ring_buffer Int)).run
      [Call.push 4, Call.pop, Call.push 5]).pushed = [] ∧
    ((Session.start (⟨1, 0, [0], 0, 0⟩ : ring_buffer Int)).run
      [Call.push 4, Call.pop, Call.push 5]).popped = [] :=
  have h := C16_capacity_one_holds_nothing 64 4096 (⟨1, 0, [0], 0, 0⟩ : ring_buffer Int)
    (by decide) [Call.push 4, Call.pop, Call.push 5] 6 7
  ⟨by decide, h.2.2.2.1, h.2.2.2.2.1⟩

/-- C17: with `size_t` a 64-bit word, `next_power_of_two(n)` terminates for
every `n ≤ 2 ^ 63` (64 evaluations of the loop condition are enough, and the
result does not depend on the fuel beyond that), returning 1 for `n = 0` and
for `n = 1`; for every `n > 2 ^ 63` it never terminates: after 63 shifts
`power` is `2 ^ 63 < n`, the next shift makes it 0, and from 0 the loop runs
on whatever the fuel. -/
theorem C17_termination_range :
    (∀ n, n ≤ 2 ^ 63 →
      ∃ r, ∀ fuel, 64 ≤ fuel → ring_buffer.next_power_of_two fuel n = some r) ∧
    (∀ fuel, 1 ≤ fuel → ring_buffer.next_power_of_two fuel 0 = some 1) ∧
    (∀ fuel, 1 ≤ fuel → ring_buffer.next_power_of_two fuel 1 = some 1) ∧
    (∀ n, 2 ^ 63 < n → ∀ fuel,
      ring_buffer.next_power_of_two fuel n = none ∧
      ring_buffer.next_power_of_two (fuel + 63) n
        = ring_buffer.next_power_of_two_loop fuel (2 ^ 63) n ∧
      ring_buffer.next_power_of_two_loop (fuel + 1) (2 ^ 63) n
        = ring_buffer.next_power_of_two_loop fuel 0 n ∧
      ring_buffer.next_power_of_two_loop fuel 0 n = none) := by
  refine ⟨next_power_of_two_fixed, ?_, ?_, ?_⟩
  · intro fuel hf
    obtain ⟨f, rfl⟩ : ∃ f, fuel = f + 1 := ⟨fuel - 1, by omega⟩
    rfl
  · intro fuel hf
    obtain ⟨f, rfl⟩ : ∃ f, fuel = f + 1 := ⟨fuel - 1, by omega⟩
    rfl
  · intro n hn fuel
    refine ⟨next_power_of_two_large n fuel hn, ?_, ?_, loop_zero_power n (by omega) fuel⟩
    · have h := loop_skip n fuel hn 63 0 (by omega)
      simpa [ring_buffer.next_power_of_two] using h
    · rw [ring_buffer.next_power_of_two_loop, if_pos hn, shift_top_wrap]

/-- C19: mask indexing. For every queue built with a requested capacity
`n ≥ 1`, `mask_ == capacity_ - 1`; for every index `i < capacity_` the cursor
advance `(i + 1) & mask_` (the `+ 1` being that of `size_t`, which does not
wrap here) equals `(i + 1) mod capacity_`; and for every logical index `x`,
`x & mask_` equals `x mod capacity_`. -/
theorem C19_mask_indexing {T : Type} [Inhabited T] (n fuel max_slots : Nat) (q : ring_buffer T)
    (_ : 1 ≤ n) (hq : ring_buffer.construct fuel max_slots n = Constructed.built q)
    (i : Nat) (hi : i < q.capacity_) :
    q.mask_ = q.capacity_ - 1 ∧
    (i + 1) % SIZE_MOD = i + 1 ∧
    ((i + 1) % SIZE_MOD) &&& q.mask_ = (i + 1) % q.capacity_ ∧
    (i + 1) &&& q.mask_ = (i + 1) % q.capacity_ ∧
    (∀ x, x &&& q.mask_ = x % q.capacity_) := by
  have hwf := (construct_wf fuel max_slots n q hq).1
  have hle := wf_cap_le hwf
  have hsm : (i + 1) % SIZE_MOD = i + 1 := by
    apply Nat.mod_eq_of_lt
    have : (2 : Nat) ^ 63 < SIZE_MOD := by decide
    omega
  refine ⟨hwf.mask, hsm, ?_, wf_and_mask hwf _, wf_and_mask hwf⟩
  rw [hsm]
  exact wf_and_mask hwf _

/-- Witness of C19: requested capacity 3 (capacity 4, mask 3), index 3, whose
advance wraps to slot 0. -/
theorem C19_mask_indexing_witness :
    (3 + 1) &&& (⟨4, 3, [0, 0, 0, 0], 0, 0⟩ : ring_buffer Int).mask_ = 0 :=
  (C19_mask_indexing 3 64 4096 (⟨4, 3, [0, 0, 0, 0], 0, 0⟩ : ring_buffer Int) (by decide)
    (by decide) 3 (by decide)).2.2.2.1

/-! ## The one-slot gap -/

theorem contents_length {T : Type} [Inhabited T] (q : ring_buffer T) :
    q.contents.length = q.count := by
  unfold ring_buffer.contents
  rw [List.length_map, List.length_range]

theorem wf_sub_and_mask {T : Type} {q : ring_buffer T} (h : q.wf) :
    ((q.tail_ + SIZE_MOD - q.head_) % SIZE_MOD) &&& q.mask_ = q.count := by
  have hh := h.head
  have ht := h.tail
  have hle := wf_cap_le h
  have hs : SIZE_MOD = 2 ^ 64 := rfl
  obtain ⟨k, hk, hc⟩ := h.pow
  have hdvd : q.capacity_ ∣ SIZE_MOD := by
    rw [hc, hs]
    exact Nat.pow_dvd_pow 2 (by omega)
  obtain ⟨e, he⟩ := hdvd
  have hpos : 0 < SIZE_MOD := by decide
  have he1 : 1 ≤ e := by
    rcases Nat.eq_zero_or_pos e with h0 | h1
    · rw [h0, Nat.mul_zero] at he; omega
    · exact h1
  rw [wf_and_mask h, Nat.mod_mod_of_dvd _ ⟨e, he⟩]
  unfold ring_buffer.count
  have hsplit : q.tail_ + SIZE_MOD - q.head_
      = (q.tail_ + q.capacity_ - q.head_) + q.capacity_ * (e - 1) := by
    have : q.capacity_ * e = q.capacity_ * (e - 1) + q.capacity_ := by
      have e2 : e = (e - 1) + 1 := by omega
      rw [e2, Nat.mul_add, Nat.mul_one]
      simp
    omega
  rw [hsplit, Nat.add_mul_mod_self_left]

theorem next_eq_head_iff {T : Type} {q : ring_buffer T} (h : q.wf) :
    (((q.tail_ + 1) % SIZE_MOD) &&& q.mask_) = q.head_ ↔ q.count = q.capacity_ - 1 := by
  have hh := h.head
  have ht := h.tail
  rw [wf_next h q.tail_ ht, wf_count h]
  split_ifs <;> omega

theorem head_eq_tail_iff {T : Type} {q : ring_buffer T} (h : q.wf) :
    q.head_ = q.tail_ ↔ q.count = 0 := by
  have hh := h.head
  have ht := h.tail
  rw [wf_count h]
  split_ifs <;> omega

/-- C11: one-slot-gap invariant. In every state reached from a queue built
with a requested capacity `n ≥ 1` by a finite sequence of `push` and `pop`
calls, the number of stored elements (successful pushes minus successful
pops, the latter never exceeding the former) equals `(tail - head) & mask`
(the subtraction being that of `size_t`), and never exceeds `capacity_ - 1`;
`head == tail` holds if and only if that number is 0, and
`((tail + 1) & mask) == head` holds if and only if it is `capacity_ - 1`. -/
theorem C11_one_slot_gap {T : Type} [Inhabited T] (n fuel max_slots : Nat) (q : ring_buffer T)
    (_ : 1 ≤ n) (hq : ring_buffer.construct fuel max_slots n = Constructed.built q)
    (calls : List (Call T)) :
    ((Session.start q).run calls).popped.length ≤ ((Session.start q).run calls).pushed.length ∧
    ((Session.start q).run calls).pushed.length - ((Session.start q).run calls).popped.length
      = ((((Session.start q).run calls).q.tail_ + SIZE_MOD
          - ((Session.start q).run calls).q.head_) % SIZE_MOD)
        &&& ((Session.start q).run calls).q.mask_ ∧
    ((Session.start q).run calls).pushed.length - ((Session.start q).run calls).popped.length
      ≤ ((Session.start q).run calls).q.capacity_ - 1 ∧
    (((Session.start q).run calls).q.head_ = ((Session.start q).run calls).q.tail_ ↔
      ((Session.start q).run calls).pushed.length
        - ((Session.start q).run calls).popped.length = 0) ∧
    (((((Session.start q).run calls).q.tail_ + 1) % SIZE_MOD)
        &&& ((Session.start q).run calls).q.mask_ = ((Session.start q).run calls).q.head_ ↔
      ((Session.start q).run calls).pushed.length
        - ((Session.start q).run calls).popped.length
          = ((Session.start q).run calls).q.capacity_ - 1) := by
  obtain ⟨h1, h2⟩ := start_invariant fuel max_slots n q hq
  obtain ⟨hwf, hinv⟩ := run_invariant calls (Session.start q) h1 h2
  generalize (Session.start q).run calls = s at hwf hinv
  have hlen := congrArg List.length hinv
  rw [List.length_append, contents_length] at hlen
  have hnum : s.pushed.length - s.popped.length = s.q.count := by omega
  have hlt := count_lt hwf
  rw [hnum]
  exact ⟨by omega, (wf_sub_and_mask hwf).symm, by omega, head_eq_tail_iff hwf,
    next_eq_head_iff hwf⟩

/-- Witness of C11: requested capacity 3 (capacity 4); four pushes of which
three succeed, then one pop: two elements stay, with tail 3 and head 1. -/
theorem C11_one_slot_gap_witness :
    ((Session.start (⟨4, 3, [0, 0, 0, 0], 0, 0⟩ : ring_buffer Int)).run
        [Call.push 1, Call.push 2, Call.push 3, Call.push 4, Call.pop]).pushed.length
      - ((Session.start (⟨4, 3, [0, 0, 0, 0], 0, 0⟩ : ring_buffer Int)).run
        [Call.push 1, Call.push 2, Call.push 3, Call.push 4, Call.pop]).popped.length
      = 2 :=
  ((C11_one_slot_gap 3 64 4096 (⟨4, 3, [0, 0, 0, 0], 0, 0⟩ : ring_buffer Int) (by decide)
    (by decide) [Call.push 1, Call.push 2, Call.push 3, Call.push 4, Call.pop]).2.1).trans
    (by decide)

/-! ## The digest -/

theorem shift_xor_wrap (a b k : Nat) :
    ((a ^^^ ((b <<< 1) % SIZE_MOD)) <<< k) % SIZE_MOD
      = ((a <<< k) % SIZE_MOD) ^^^ ((b <<< (k + 1)) % SIZE_MOD) := by
  apply Nat.eq_of_testBit_eq
  intro i
  simp only [SIZE_MOD, Nat.testBit_mod_two_pow, Nat.testBit_shiftLeft, Nat.testBit_xor]
  by_cases h1 : i < 64
  · by_cases h2 : k ≤ i
    · by_cases h3 : k + 1 ≤ i
      · have e1 : i - k < 64 := by omega
        have e2 : 1 ≤ i - k := by omega
        have e3 : i - k - 1 = i - (k + 1) := by omega
        simp [h1, h2, h3, e1, e2, e3]
      · have e2 : ¬ 1 ≤ i - k := by omega
        simp [h1, h2, h3, e2]
    · have h3 : ¬ k + 1 ≤ i := by omega
      simp [h1, h2, h3]
  · simp [h1]

theorem set_lt {T : Type} (std_hash : T → Nat) (h : hash_calculator) (v : T) :
    (h.set std_hash v).digest_ < SIZE_MOD := by
  unfold hash_calculator.set
  have hpos : 0 < SIZE_MOD := by decide
  exact Nat.xor_lt_two_pow (Nat.mod_lt _ hpos) (Nat.mod_lt _ hpos)

theorem feed_digest {T : Type} (std_hash : T → Nat) (vs : List T) :
    ∀ d : Nat, d < SIZE_MOD →
      (vs.foldl (hash_calculator.set std_hash) { digest_ := d }).digest_
        = (hash_calculator.of_values std_hash vs).digest_
          ^^^ ((d <<< vs.length) % SIZE_MOD) := by
  unfold hash_calculator.of_values hash_calculator.init
  induction vs with
  | nil =>
    intro d hd
    simp only [List.foldl_nil, List.length_nil, Nat.shiftLeft_zero, Nat.zero_xor]
    exact (Nat.mod_eq_of_lt hd).symm
  | cons v vs ih =>
    intro d hd
    have h1 := set_lt std_hash { digest_ := d } v
    have h2 := set_lt std_hash { digest_ := 0 } v
    simp only [List.foldl_cons, List.length_cons]
    rw [ih _ h1, ih _ h2]
    simp only [hash_calculator.set]
    rw [shift_xor_wrap, shift_xor_wrap, Nat.xor_assoc]
    congr 1
    rw [Nat.zero_shiftLeft, Nat.zero_mod, Nat.xor_zero]

theorem shift_word_out (d : Nat) : (d <<< 64) % SIZE_MOD = 0 := by
  rw [Nat.shiftLeft_eq]
  exact Nat.mul_mod_left _ _

theorem of_values_append {T : Type} (std_hash : T → Nat) (us vs : List T) :
    (hash_calculator.of_values std_hash (us ++ vs)).digest_
      = (hash_calculator.of_values std_hash vs).digest_
        ^^^ (((hash_calculator.of_values std_hash us).digest_ <<< vs.length) % SIZE_MOD) := by
  have hlt : (hash_calculator.of_values std_hash us).digest_ < SIZE_MOD := by
    rcases List.eq_nil_or_concat us with h | ⟨l, b, h⟩
    · rw [h]
      show (0 : Nat) < SIZE_MOD
      decide
    · rw [h, List.concat_eq_append, of_values_snoc]
      exact set_lt std_hash _ b
  have h := feed_digest std_hash vs _ hlt
  unfold hash_calculator.of_values at h ⊢
  rw [List.foldl_append]
  exact h

theorem digest_last_64 {T : Type} (std_hash : T → Nat) (us ws vs : List T)
    (hv : vs.length = 64) :
    hash_calculator.of_values std_hash (us ++ vs)
      = hash_calculator.of_values std_hash (ws ++ vs) := by
  have h1 := of_values_append std_hash us vs
  have h2 := of_values_append std_hash ws vs
  rw [hv, shift_word_out] at h1 h2
  have e : (hash_calculator.of_values std_hash (us ++ vs)).digest_
      = (hash_calculator.of_values std_hash (ws ++ vs)).digest_ := by rw [h1, h2]
  cases hu : hash_calculator.of_values std_hash (us ++ vs)
  cases hw : hash_calculator.of_values std_hash (ws ++ vs)
  rw [hu, hw] at e
  simp only [hash_calculator.mk.injEq]
  exact e

theorem shift_one_xor (x y : Nat) :
    ((x ^^^ y) <<< 1) % SIZE_MOD = ((x <<< 1) % SIZE_MOD) ^^^ ((y <<< 1) % SIZE_MOD) := by
  apply Nat.eq_of_testBit_eq
  intro i
  simp only [SIZE_MOD, Nat.testBit_mod_two_pow, Nat.testBit_shiftLeft, Nat.testBit_xor]
  by_cases h1 : i < 64 <;> by_cases h2 : 1 ≤ i <;> simp [h1, h2]

theorem shift_one_fixed (z : Nat) (hz : z < SIZE_MOD) (h : (z <<< 1) % SIZE_MOD = z) :
    z = 0 := by
  have hs : SIZE_MOD = 18446744073709551616 := by decide
  rw [Nat.shiftLeft_eq, pow_one, hs] at h
  rw [hs] at hz
  omega

theorem swap_detected (x y d : Nat) (hx : x < SIZE_MOD) (hy : y < SIZE_MOD)
    (h : y ^^^ (((x <<< 1) % SIZE_MOD) ^^^ d) = x ^^^ (((y <<< 1) % SIZE_MOD) ^^^ d)) :
    x = y := by
  have h2 : y ^^^ ((x <<< 1) % SIZE_MOD) = x ^^^ ((y <<< 1) % SIZE_MOD) := by
    rw [← Nat.xor_assoc, ← Nat.xor_assoc] at h
    exact Nat.xor_left_inj.mp h
  have h3 : ((x <<< 1) % SIZE_MOD) ^^^ ((y <<< 1) % SIZE_MOD) = x ^^^ y := by
    calc ((x <<< 1) % SIZE_MOD) ^^^ ((y <<< 1) % SIZE_MOD)
        = (y ^^^ (y ^^^ ((x <<< 1) % SIZE_MOD))) ^^^ ((y <<< 1) % SIZE_MOD) := by
          rw [Nat.xor_cancel_left]
      _ = (y ^^^ (x ^^^ ((y <<< 1) % SIZE_MOD))) ^^^ ((y <<< 1) % SIZE_MOD) := by rw [h2]
      _ = x ^^^ y := by
          rw [← Nat.xor_assoc, Nat.xor_cancel_right, Nat.xor_comm]
  have h4 : ((x ^^^ y) <<< 1) % SIZE_MOD = x ^^^ y := by rw [shift_one_xor, h3]
  have hlt : x ^^^ y < SIZE_MOD := Nat.xor_lt_two_pow hx hy
  exact Nat.xor_eq_zero.mp (shift_one_fixed _ hlt h4)

theorem digest_last_changed {T : Type} (std_hash : T → Nat) (zs : List T) (a b : T) :
    (hash_calculator.of_values std_hash (zs ++ [a])).value
        = (hash_calculator.of_values std_hash (zs ++ [b])).value ↔
      std_hash a % SIZE_MOD = std_hash b % SIZE_MOD := by
  rw [of_values_snoc, of_values_snoc]
  unfold hash_calculator.value hash_calculator.set
  exact Nat.xor_left_inj

theorem digest_last_swapped {T : Type} (std_hash : T → Nat) (zs : List T) (a b : T) :
    (hash_calculator.of_values std_hash (zs ++ [a, b])).value
        = (hash_calculator.of_values std_hash (zs ++ [b, a])).value ↔
      std_hash a % SIZE_MOD = std_hash b % SIZE_MOD := by
  have hpos : 0 < SIZE_MOD := by decide
  have e1 : zs ++ [a, b] = (zs ++ [a]) ++ [b] := by simp
  have e2 : zs ++ [b, a] = (zs ++ [b]) ++ [a] := by simp
  rw [e1, e2, of_values_snoc, of_values_snoc, of_values_snoc, of_values_snoc]
  unfold hash_calculator.value hash_calculator.set
  simp only []
  rw [shift_xor_wrap, shift_xor_wrap]
  constructor
  · intro h
    exact swap_detected _ _ _ (Nat.mod_lt _ hpos) (Nat.mod_lt _ hpos) h
  · intro h
    rw [h]

/-- C15, as stated, fails. With the identity as `std::hash<int>` (as in
libstdc++), the digest of 0, 1, 2 equals that of 1, 2 (the element 0 lost),
that of 0, 0, 1 (the element 0 duplicated) equals that of 0, 1, and that of
0, 1, 2 equals that of its reordering 1, 2, 0. And whatever `std::hash<int>`
is, equal digests do not force equal sequences: two sequences of 65 values
that differ in their first value only have the same digest. -/
theorem C15_undetected_differences :
    (hash_calculator.of_values Int.toNat [0, 1, 2]).value
      = (hash_calculator.of_values Int.toNat [1, 2]).value ∧
    (hash_calculator.of_values Int.toNat [0, 0, 1]).value
      = (hash_calculator.of_values Int.toNat [0, 1]).value ∧
    (hash_calculator.of_values Int.toNat [0, 1, 2]).value
      = (hash_calculator.of_values Int.toNat [1, 2, 0]).value ∧
    ¬ ∃ std_hash : Int → Nat, ∀ xs ys : List Int,
      (hash_calculator.of_values std_hash xs).value
        = (hash_calculator.of_values std_hash ys).value → xs = ys := by
  refine ⟨by decide, by decide, by decide, ?_⟩
  rintro ⟨std_hash, h⟩
  have hd := digest_last_64 std_hash [0] [1] (List.replicate 64 (0 : Int))
    (List.length_replicate 64 0)
  have he := h ([0] ++ List.replicate 64 0) ([1] ++ List.replicate 64 0) (by rw [hd])
  have h0 := congrArg List.head? he
  simp at h0

/-- C15, amended: what the harness hash does detect. For every
`std::hash<int>`, every sequence `zs` and all values `a` and `b` fed in order
to `hash_calculator::set` starting from digest 0: the digests of `zs, a` and
`zs, b` (the last element replaced) are equal if and only if `a` and `b`
have the same hash, and the digests of `zs, a, b` and `zs, b, a` (the last
two elements reordered) are equal if and only if `a` and `b` have the same
hash. Equal digests do not in general mean equal sequences. -/
theorem C15_hash_detection (std_hash : Int → Nat) (zs : List Int) (a b : Int) :
    ((hash_calculator.of_values std_hash (zs ++ [a])).value
        = (hash_calculator.of_values std_hash (zs ++ [b])).value ↔
      std_hash a % SIZE_MOD = std_hash b % SIZE_MOD) ∧
    ((hash_calculator.of_values std_hash (zs ++ [a, b])).value
        = (hash_calculator.of_values std_hash (zs ++ [b, a])).value ↔
      std_hash a % SIZE_MOD = std_hash b % SIZE_MOD) :=
  ⟨digest_last_changed std_hash zs a b, digest_last_swapped std_hash zs a b⟩

/-- C18: the digest depends only on the last 64 values. For every per-value
hash function and every two sequences of at least 64 values that agree on
their last 64 elements, the digests after feeding each sequence to `set`,
starting from a fresh `hash_calculator`, are equal, whatever the earlier
elements are. -/
theorem C18_last_64_values {T : Type} (std_hash : T → Nat) (xs ys : List T)
    (hx : 64 ≤ xs.length) (_ : 64 ≤ ys.length)
    (hlast : xs.drop (xs.length - 64) = ys.drop (ys.length - 64)) :
    (hash_calculator.of_values std_hash xs).value
      = (hash_calculator.of_values std_hash ys).value := by
  have hlen : (xs.drop (xs.length - 64)).length = 64 := by
    rw [List.length_drop]
    omega
  have ex : xs = xs.take (xs.length - 64) ++ xs.drop (xs.length - 64) :=
    (List.take_append_drop _ _).symm
  have ey : ys = ys.take (ys.length - 64) ++ xs.drop (xs.length - 64) := by
    rw [hlast]
    exact (List.take_append_drop _ _).symm
  rw [ex, ey, digest_last_64 std_hash _ (ys.take (ys.length - 64)) _ hlen]

/-- Witness of C18: two sequences of 66 values that differ in their first
two values and agree on the last 64, with the identity as hash function. -/
theorem C18_last_64_values_witness :
    (hash_calculator.of_values Int.toNat ([7, 8] ++ List.replicate 64 3)).value
      = (hash_calculator.of_values Int.toNat ([5, 6] ++ List.replicate 64 3)).value :=
  C18_last_64_values Int.toNat ([7, 8] ++ List.replicate 64 3) ([5, 6] ++ List.replicate 64 3)
    (by decide) (by decide) (by decide)

/-! ## Fine-grained interleaving -/

theorem producer_action_inv {T : Type} (s : fine_state T) (value : T) (h : fine_inv s) :
    fine_inv (s.producer_action value) := by
  have hh := h.wf.head
  have ht := h.wf.tail
  unfold fine_state.producer_action
  cases hpc : s.p_pc with
  | load_own =>
    exact
      { wf := h.wf
        p_tail := fun _ => rfl
        p_room := by simp
        c_head := h.c_head
        c_some := h.c_some }
  | load_peer =>
    have hcur : s.p_curr_tail = s.q.tail_ := h.p_tail (by rw [hpc]; simp)
    simp only []
    rw [hcur, wf_next h.wf s.q.tail_ ht]
    by_cases hfull : (if s.q.tail_ + 1 < s.q.capacity_ then s.q.tail_ + 1 else 0) = s.q.head_
    · rw [if_pos hfull]
      exact
        { wf := h.wf
          p_tail := by simp
          p_room := by simp
          c_head := h.c_head
          c_some := h.c_some }
    · rw [if_neg hfull]
      exact
        { wf := h.wf
          p_tail := fun _ => rfl
          p_room := fun _ => hfull
          c_head := h.c_head
          c_some := h.c_some }
  | access_slot =>
    have hcur : s.p_curr_tail = s.q.tail_ := h.p_tail (by rw [hpc]; simp)
    exact
      { wf := ⟨h.wf.pow, h.wf.mask, by simpa using h.wf.len, h.wf.head, h.wf.tail⟩
        p_tail := fun _ => hcur
        p_room := fun _ => h.p_room (by rw [hpc]; simp)
        c_head := h.c_head
        c_some := h.c_some }
  | store_own =>
    have hcur : s.p_curr_tail = s.q.tail_ := h.p_tail (by rw [hpc]; simp)
    have hroom := h.p_room (by rw [hpc]; simp)
    simp only []
    rw [hcur, wf_next h.wf s.q.tail_ ht]
    exact
      { wf := ⟨h.wf.pow, h.wf.mask, h.wf.len, h.wf.head, by
          show (if s.q.tail_ + 1 < s.q.capacity_ then s.q.tail_ + 1 else 0) < s.q.capacity_
          split <;> omega⟩
        p_tail := by simp
        p_room := by simp
        c_head := h.c_head
        c_some := fun _ => Ne.symm hroom }

theorem consumer_action_inv {T : Type} [Inhabited T] (s : fine_state T) (h : fine_inv s) :
    fine_inv s.consumer_action := by
  have hh := h.wf.head
  have ht := h.wf.tail
  unfold fine_state.consumer_action
  cases hpc : s.c_pc with
  | load_own =>
    exact
      { wf := h.wf
        p_tail := h.p_tail
        p_room := h.p_room
        c_head := fun _ => rfl
        c_some := by simp }
  | load_peer =>
    have hcur : s.c_curr_head = s.q.head_ := h.c_head (by rw [hpc]; simp)
    simp only []
    rw [hcur]
    by_cases hemp : s.q.head_ = s.q.tail_
    · rw [if_pos hemp]
      exact
        { wf := h.wf
          p_tail := h.p_tail
          p_room := h.p_room
          c_head := by simp
          c_some := by simp }
    · rw [if_neg hemp]
      exact
        { wf := h.wf
          p_tail := h.p_tail
          p_room := h.p_room
          c_head := fun _ => rfl
          c_some := fun _ => hemp }
  | access_slot =>
    have hcur : s.c_curr_head = s.q.head_ := h.c_head (by rw [hpc]; simp)
    exact
      { wf := h.wf
        p_tail := h.p_tail
        p_room := h.p_room
        c_head := fun _ => hcur
        c_some := fun _ => h.c_some (by rw [hpc]; simp) }
  | store_own =>
    have hcur : s.c_curr_head = s.q.head_ := h.c_head (by rw [hpc]; simp)
    have hsome := h.c_some (by rw [hpc]; simp)
    simp only []
    rw [hcur, wf_next h.wf s.q.head_ hh]
    exact
      { wf := ⟨h.wf.pow, h.wf.mask, h.wf.len, by
          show (if s.q.head_ + 1 < s.q.capacity_ then s.q.head_ + 1 else 0) < s.q.capacity_
          split <;> omega, h.wf.tail⟩
        p_tail := h.p_tail
        p_room := fun _ => by
          show (if s.q.tail_ + 1 < s.q.capacity_ then s.q.tail_ + 1 else 0)
            ≠ (if s.q.head_ + 1 < s.q.capacity_ then s.q.head_ + 1 else 0)
          split_ifs <;> omega
        c_head := by simp
        c_some := by simp }

theorem fine_run_inv {T : Type} [Inhabited T] (moves : List (Move T)) :
    ∀ s : fine_state T, fine_inv s → fine_inv (s.run moves) := by
  induction moves with
  | nil => intro s h; exact h
  | cons m ms ih =>
    intro s h
    apply ih
    cases m with
    | producer value => exact producer_action_inv s value h
    | consumer => exact consumer_action_inv s h

theorem fine_start_inv {T : Type} [Inhabited T] (q : ring_buffer T) (hwf : q.wf) :
    fine_inv (fine_state.start q) :=
  { wf := hwf
    p_tail := by simp [fine_state.start]
    p_room := by simp [fine_state.start]
    c_head := by simp [fine_state.start]
    c_some := by simp [fine_state.start] }

/-- C12: slot exclusion under fine-grained interleaving. Split `push` and
`pop` into their steps (load own cursor, load peer cursor and test, access
slot, store own cursor) and interleave the steps of one producer and one
consumer arbitrarily over sequentially consistent memory, starting from a
queue built with a requested capacity `n ≥ 1`. In no state reached is the
producer at its slot-write step for a slot while the consumer is at its
slot-read step for the same slot. -/
theorem C12_slot_exclusion {T : Type} [Inhabited T] (n fuel max_slots : Nat) (q : ring_buffer T)
    (_ : 1 ≤ n) (hq : ring_buffer.construct fuel max_slots n = Constructed.built q)
    (moves : List (Move T)) :
    ¬ (((fine_state.start q).run moves).p_pc = Pc.access_slot ∧
       ((fine_state.start q).run moves).c_pc = Pc.access_slot ∧
       ((fine_state.start q).run moves).p_curr_tail
         = ((fine_state.start q).run moves).c_curr_head) := by
  have hwf := (construct_wf fuel max_slots n q hq).1
  have inv := fine_run_inv moves (fine_state.start q) (fine_start_inv q hwf)
  generalize (fine_state.start q).run moves = s at inv
  rintro ⟨hp, hc, heq⟩
  have h1 := inv.p_tail (by rw [hp]; simp)
  have h2 := inv.c_head (by rw [hc]; simp)
  have h3 := inv.c_some (Or.inl hc)
  omega

/-- Witness of C12: requested capacity 3 (capacity 4). After one whole push,
the producer goes up to the slot-write step of a second push and the
consumer up to the slot-read step of a pop: both are at their slot access,
the producer on slot 1 and the consumer on slot 0. -/
theorem C12_slot_exclusion_witness :
    ((fine_state.start (⟨4, 3, [0, 0, 0, 0], 0, 0⟩ : ring_buffer Int)).run
      [Move.producer 1, Move.producer 1, Move.producer 1, Move.producer 1,
        Move.producer 2, Move.producer 2, Move.consumer, Move.consumer]).p_pc
        = Pc.access_slot ∧
    ((fine_state.start (⟨4, 3, [0, 0, 0, 0], 0, 0⟩ : ring_buffer Int)).run
      [Move.producer 1, Move.producer 1, Move.producer 1, Move.producer 1,
        Move.producer 2, Move.producer 2, Move.consumer, Move.consumer]).c_pc
        = Pc.access_slot ∧
    ((fine_state.start (⟨4, 3, [0, 0, 0, 0], 0, 0⟩ : ring_buffer Int)).run
      [Move.producer 1, Move.producer 1, Move.producer 1, Move.producer 1,
        Move.producer 2, Move.producer 2, Move.consumer, Move.consumer]).p_curr_tail
        ≠ ((fine_state.start (⟨4, 3, [0, 0, 0, 0], 0, 0⟩ : ring_buffer Int)).run
      [Move.producer 1, Move.producer 1, Move.producer 1, Move.producer 1,
        Move.producer 2, Move.producer 2, Move.consumer, Move.consumer]).c_curr_head :=
  ⟨by decide, by decide, fun heq =>
    C12_slot_exclusion 3 64 4096 (⟨4, 3, [0, 0, 0, 0], 0, 0⟩ : ring_buffer Int) (by decide)
      (by decide)
      [Move.producer 1, Move.producer 1, Move.producer 1, Move.producer 1,
        Move.producer 2, Move.producer 2, Move.consumer, Move.consumer]
      ⟨by decide, by decide, heq⟩⟩
